import Mathlib

/-!
Verification development for the social-network-analysis decision support
system.  The graph-layout helpers are embedded directly from
`src/dss/graph/layouts.py`; the analytics engines (centrality aggregation,
RoleSim, Kemeny sequencing, arrest optimization, CSV export) are not part of
the shipped source tree, so they are modelled from the specification, as
marked in the corresponding doc comments.  Real numbers from the Python code
are embedded as rationals; external library calls (networkx, numpy, the ILP
solver) are parameters of the embedding.
-/

namespace Layouts

/-- Embedding of a `networkx` position dictionary: an association list from
nodes to 2-D coordinates (numpy arrays of length 2 become pairs). -/
abbrev Pos (ν : Type) := List (ν × (ℚ × ℚ))

/-- Embeds `coords.min(axis=0)` for one axis of a nonempty coordinate list
(the empty case is never reached by `rescale_layout`, which returns early). -/
def axisLo : List ℚ → ℚ
  | [] => 0
  | x :: xs => xs.foldl min x

/-- Embeds `coords.max(axis=0)` for one axis of a nonempty coordinate list. -/
def axisHi : List ℚ → ℚ
  | [] => 0
  | x :: xs => xs.foldl max x

/-- The literal `1e-12` from `rescale_layout` (span floor preventing a division
by zero). -/
def spanEps : ℚ := 1 / 1000000000000

/-- The per-axis divisor of `rescale_layout`:
`span = np.maximum(max_vals - min_vals, 1e-12)`. -/
def spanOf (l : List ℚ) : ℚ := max (axisHi l - axisLo l) spanEps

/-- Embedding of `rescale_layout(pos, scale)` from `src/dss/graph/layouts.py`
(lines 61-105): empty input returned unchanged; otherwise coordinates are
normalised per axis by `(c - min) / span` with the span floored at `1e-12`,
then mapped through `(c - 0.5) * 2.0 * scale`. -/
def rescale_layout (pos : Pos ν) (scale : ℚ) : Pos ν :=
  match pos with
  | [] => pos
  | _ :: _ =>
    let xs := pos.map (fun p => p.2.1)
    let ys := pos.map (fun p => p.2.2)
    let minX := axisLo xs
    let minY := axisLo ys
    let spanX := spanOf xs
    let spanY := spanOf ys
    pos.map (fun p =>
      (p.1, (((p.2.1 - minX) / spanX - 1/2) * 2 * scale,
             ((p.2.2 - minY) / spanY - 1/2) * 2 * scale)))

/-- The external collaborators used by `compute_layout`: the graph type is
abstract, `numberOfNodes` embeds `G.number_of_nodes()`, `springLayout` embeds
`nx.spring_layout(G, seed=s, k=k, iterations=it)`, `kamadaKawaiLayout` embeds
`nx.kamada_kawai_layout(G)`, `sqrtQ` embeds `np.sqrt`, and `layoutSpacing`
embeds `DEFAULTS.layout_spacing` (the config module is outside the analysed
sources). -/
structure NxLib (γ ν : Type) where
  numberOfNodes : γ → ℕ
  springLayout : γ → ℕ → ℚ → ℕ → Pos ν
  kamadaKawaiLayout : γ → Pos ν
  sqrtQ : ℚ → ℚ
  layoutSpacing : ℚ

/-- Embedding of `compute_layout(G, layout_name, seed)` from
`src/dss/graph/layouts.py` (lines 108-170): the spring constant is
`k = base_k * spacing` with `base_k = 1 / sqrt(max(|V|, 1))`; the `spring`
branch and the unknown-name fallback branch both call the spring layout with
`iterations=100`; the `kamada_kawai` branch calls the deterministic
Kamada-Kawai layout; the result is always passed through
`rescale_layout(pos, scale=1.0)`. -/
def compute_layout (lib : NxLib γ ν) (G : γ) (layoutName : String) (seed : ℕ) : Pos ν :=
  let spacing := lib.layoutSpacing
  let nNodes : ℕ := max (lib.numberOfNodes G) 1
  let baseK : ℚ := 1 / lib.sqrtQ (nNodes : ℚ)
  let pos :=
    if layoutName = ("spring") then
      lib.springLayout G seed (baseK * spacing) 100
    else if layoutName = ("kamada_kawai") then
      lib.kamadaKawaiLayout G
    else
      lib.springLayout G seed (baseK * spacing) 100
  rescale_layout pos 1

theorem foldl_min_le_init (l : List ℚ) (a : ℚ) : l.foldl min a ≤ a := by
  induction l generalizing a with
  | nil => exact le_refl a
  | cons b bs ih =>
    calc (b :: bs).foldl min a = bs.foldl min (min a b) := rfl
    _ ≤ min a b := ih _
    _ ≤ a := min_le_left _ _

theorem foldl_min_le_mem {l : List ℚ} {x : ℚ} (a : ℚ) (hx : x ∈ l) :
    l.foldl min a ≤ x := by
  induction l generalizing a with
  | nil => cases hx
  | cons b bs ih =>
    rcases List.mem_cons.mp hx with h | h
    · subst h
      calc (x :: bs).foldl min a = bs.foldl min (min a x) := rfl
      _ ≤ min a x := foldl_min_le_init _ _
      _ ≤ x := min_le_right _ _
    · exact ih _ h

theorem init_le_foldl_max (l : List ℚ) (a : ℚ) : a ≤ l.foldl max a := by
  induction l generalizing a with
  | nil => exact le_refl a
  | cons b bs ih =>
    calc a ≤ max a b := le_max_left _ _
    _ ≤ bs.foldl max (max a b) := ih _
    _ = (b :: bs).foldl max a := rfl

theorem mem_le_foldl_max {l : List ℚ} {x : ℚ} (a : ℚ) (hx : x ∈ l) :
    x ≤ l.foldl max a := by
  induction l generalizing a with
  | nil => cases hx
  | cons b bs ih =>
    rcases List.mem_cons.mp hx with h | h
    · subst h
      calc x ≤ max a x := le_max_right _ _
      _ ≤ bs.foldl max (max a x) := init_le_foldl_max _ _
      _ = (x :: bs).foldl max a := rfl
    · exact ih _ h

theorem axisLo_le_mem {l : List ℚ} {x : ℚ} (hx : x ∈ l) : axisLo l ≤ x := by
  cases l with
  | nil => cases hx
  | cons a as =>
    rcases List.mem_cons.mp hx with h | h
    · subst h; exact foldl_min_le_init as x
    · exact foldl_min_le_mem a h

theorem mem_le_axisHi {l : List ℚ} {x : ℚ} (hx : x ∈ l) : x ≤ axisHi l := by
  cases l with
  | nil => cases hx
  | cons a as =>
    rcases List.mem_cons.mp hx with h | h
    · subst h; exact init_le_foldl_max as x
    · exact mem_le_foldl_max a h

theorem spanOf_pos (l : List ℚ) : 0 < spanOf l := by
  have h : (0:ℚ) < spanEps := by norm_num [spanEps]
  exact lt_of_lt_of_le h (le_max_right _ _)

theorem spanOf_ge_diff (l : List ℚ) : axisHi l - axisLo l ≤ spanOf l :=
  le_max_left _ _

/-- A normalised-and-recentred coordinate stays inside the target half-range
when the target scale is nonnegative. -/
theorem coord_bound {c lo hi e s : ℚ} (h1 : lo ≤ c) (h2 : c ≤ hi)
    (he : 0 < e) (hde : hi - lo ≤ e) (hs : 0 ≤ s) :
    -s ≤ ((c - lo) / e - 1/2) * 2 * s ∧ ((c - lo) / e - 1/2) * 2 * s ≤ s := by
  have ht0 : 0 ≤ (c - lo) / e := div_nonneg (by linarith) he.le
  have ht1 : (c - lo) / e ≤ 1 := by
    rw [div_le_one he]; linarith
  have hu1 : (-1 : ℚ) ≤ ((c - lo) / e - 1/2) * 2 := by linarith
  have hu2 : ((c - lo) / e - 1/2) * 2 ≤ 1 := by linarith
  constructor
  · have := mul_le_mul_of_nonneg_right hu1 hs
    linarith
  · have := mul_le_mul_of_nonneg_right hu2 hs
    linarith

/-- A fixed embedding of an external layout library used to instantiate the
layout theorems on concrete inputs. -/
def trivLib : NxLib Unit Unit :=
  ⟨fun _ => 1, fun _ _ _ _ => [((), (0, 0))], fun _ => [], fun q => q, 1⟩

end Layouts

/-- C8: for every graph, seed and layout name other than spring and
kamada_kawai, compute_layout returns exactly the node-to-coordinate mapping of
the spring branch: the unknown-name fallback performs the identical spring
call (same spring constant, iteration count and seed) followed by the same
rescaling. -/
theorem C8_fallback_eq_spring {γ ν : Type} (lib : Layouts.NxLib γ ν) (G : γ)
    (layoutName : String) (seed : ℕ)
    (h1 : layoutName ≠ ("spring")) (h2 : layoutName ≠ ("kamada_kawai")) :
    Layouts.compute_layout lib G layoutName seed =
      Layouts.compute_layout lib G ("spring") seed := by
  simp [Layouts.compute_layout, h1, h2]

theorem C8_fallback_eq_spring_witness :
    (("circular") : String) ≠ ("spring") ∧ (("circular") : String) ≠ ("kamada_kawai") ∧
    Layouts.compute_layout Layouts.trivLib () ("circular") 0 =
      Layouts.compute_layout Layouts.trivLib () ("spring") 0 :=
  ⟨by decide, by decide,
    C8_fallback_eq_spring Layouts.trivLib () ("circular") 0 (by decide) (by decide)⟩

/-- C9 (amended: the coordinate bound holds for every nonnegative scale):
rescale_layout is total, preserves the node list, the per-axis divisor is the
span floored at 1e-12 and hence strictly positive, the empty mapping is
returned unchanged, and for 0 ≤ scale every output coordinate lies within
[-scale, scale] on each axis. -/
theorem C9_rescale_layout_bounds {ν : Type} (pos : Layouts.Pos ν) (scale : ℚ)
    (hs : 0 ≤ scale) :
    (Layouts.rescale_layout pos scale).map Prod.fst = pos.map Prod.fst ∧
    (∀ p ∈ Layouts.rescale_layout pos scale,
      -scale ≤ p.2.1 ∧ p.2.1 ≤ scale ∧ -scale ≤ p.2.2 ∧ p.2.2 ≤ scale) ∧
    (0 < Layouts.spanOf (pos.map (fun p => p.2.1)) ∧
     0 < Layouts.spanOf (pos.map (fun p => p.2.2))) ∧
    Layouts.rescale_layout ([] : Layouts.Pos ν) scale = [] := by
  refine ⟨?_, ?_, ⟨Layouts.spanOf_pos _, Layouts.spanOf_pos _⟩, rfl⟩
  · cases pos with
    | nil => rfl
    | cons p ps =>
      simp [Layouts.rescale_layout]
  · intro q hq
    cases pos with
    | nil => simp [Layouts.rescale_layout] at hq
    | cons p ps =>
      simp only [Layouts.rescale_layout, List.mem_map] at hq
      obtain ⟨r, hr, hrq⟩ := hq
      subst hrq
      have hx : r.2.1 ∈ (p :: ps).map (fun p => p.2.1) := List.mem_map_of_mem _ hr
      have hy : r.2.2 ∈ (p :: ps).map (fun p => p.2.2) := List.mem_map_of_mem _ hr
      have bx := Layouts.coord_bound (Layouts.axisLo_le_mem hx) (Layouts.mem_le_axisHi hx)
        (Layouts.spanOf_pos ((p :: ps).map (fun p => p.2.1)))
        (Layouts.spanOf_ge_diff _) hs
      have by2 := Layouts.coord_bound (Layouts.axisLo_le_mem hy) (Layouts.mem_le_axisHi hy)
        (Layouts.spanOf_pos ((p :: ps).map (fun p => p.2.2)))
        (Layouts.spanOf_ge_diff _) hs
      exact ⟨bx.1, bx.2, by2.1, by2.2⟩

theorem C9_rescale_layout_bounds_witness :
    (0 : ℚ) ≤ 1 ∧
    (∀ p ∈ Layouts.rescale_layout ([((0:ℕ), ((0:ℚ), (0:ℚ))), (1, (2, 3))]) 1,
      -(1:ℚ) ≤ p.2.1 ∧ p.2.1 ≤ 1 ∧ -(1:ℚ) ≤ p.2.2 ∧ p.2.2 ≤ 1) :=
  ⟨by norm_num,
    (C9_rescale_layout_bounds ([((0:ℕ), ((0:ℚ), (0:ℚ))), (1, (2, 3))]) 1 (by norm_num)).2.1⟩

/-- C9 counterexample: with a negative scale the output coordinates do not lie
within [-scale, scale]; at scale = -1 on a two-point layout the rescaled
x-coordinate 1 violates the upper bound -1. -/
theorem C9_neg_scale_counterexample :
    ¬ (∀ p ∈ Layouts.rescale_layout ([((0:ℕ), ((0:ℚ), (0:ℚ))), (1, (1, 1))]) (-1),
        -(-1:ℚ) ≤ p.2.1 ∧ p.2.1 ≤ -1) := by
  intro h
  have hc : Layouts.rescale_layout ([((0:ℕ), ((0:ℚ), (0:ℚ))), (1, (1, 1))]) (-1) =
      [((0:ℕ), ((1:ℚ), (1:ℚ))), (1, (-1, -1))] := by
    norm_num [Layouts.rescale_layout, Layouts.axisLo, Layouts.axisHi,
      Layouts.spanOf, Layouts.spanEps]
  rw [hc] at h
  have := (h ((0:ℕ), ((1:ℚ), (1:ℚ))) (by simp)).2
  norm_num at this

/-- C10: compute_layout is deterministic: its output depends only on the
graph, the layout name and the explicit seed.  The external library functions
are indexed by an ambient world; under the networkx contract that seeded
spring layout and Kamada-Kawai layout are world-independent, two calls made in
different worlds with equal arguments return identical mappings. -/
theorem C10_compute_layout_deterministic {γ ν W : Type}
    (libOf : W → Layouts.NxLib γ ν)
    (hnodes : ∀ w w', (libOf w).numberOfNodes = (libOf w').numberOfNodes)
    (hspring : ∀ w w', (libOf w).springLayout = (libOf w').springLayout)
    (hkk : ∀ w w', (libOf w).kamadaKawaiLayout = (libOf w').kamadaKawaiLayout)
    (hsqrt : ∀ w w', (libOf w).sqrtQ = (libOf w').sqrtQ)
    (hspace : ∀ w w', (libOf w).layoutSpacing = (libOf w').layoutSpacing)
    (w w' : W) (G : γ) (layoutName : String) (seed : ℕ) :
    Layouts.compute_layout (libOf w) G layoutName seed =
      Layouts.compute_layout (libOf w') G layoutName seed := by
  simp only [Layouts.compute_layout, hnodes w w', hspring w w', hkk w w',
    hsqrt w w', hspace w w']

theorem C10_compute_layout_deterministic_witness :
    Layouts.compute_layout Layouts.trivLib () ("spring") 7 =
      Layouts.compute_layout Layouts.trivLib () ("spring") 7 :=
  C10_compute_layout_deterministic (fun _ : Bool => Layouts.trivLib)
    (fun _ _ => rfl) (fun _ _ => rfl) (fun _ _ => rfl) (fun _ _ => rfl)
    (fun _ _ => rfl) true false () ("spring") 7


namespace Centrality

/-- Modelled from the spec: the column minimum used by min-max normalisation
in the Centrality Engine (`dss.analytics.centrality` is not in the analysed
sources; spec section 4.1 requires each measure min-max normalised to [0,1]
before aggregation). -/
def colMin {nn : ℕ} (col : Fin nn → ℚ) : ℚ :=
  Layouts.axisLo ((List.finRange nn).map col)

/-- Modelled from the spec: the column maximum used by min-max
normalisation. -/
def colMax {nn : ℕ} (col : Fin nn → ℚ) : ℚ :=
  Layouts.axisHi ((List.finRange nn).map col)

/-- Modelled from the spec: min-max normalisation of one table cell; a
constant column normalises to 0 (section 4.1: each measure is min-max
normalised to [0,1] before aggregation). -/
def normCell {nn : ℕ} (col : Fin nn → ℚ) (u : Fin nn) : ℚ :=
  let mn := colMin col
  let mx := colMax col
  if mx = mn then 0 else (col u - mn) / (mx - mn)

/-- Modelled from the spec: a weight vector is a partial map from measure
columns to weights in [0,1]; a missing weight defaults to 1.0 (section
4.1). -/
def getWeight {m : ℕ} (w : Fin m → Option ℚ) (c : Fin m) : ℚ :=
  (w c).getD 1

/-- Modelled from the spec: `combine(table, weights)` of the Centrality
Engine, the weighted sum of the min-max-normalised columns (section 4.1;
`combine_centralities` itself is outside the analysed sources, only its
caller on the centrality page is present). -/
def combine_centralities {m nn : ℕ} (t : Fin m → Fin nn → ℚ)
    (w : Fin m → Option ℚ) (u : Fin nn) : ℚ :=
  ∑ c : Fin m, getWeight w c * normCell (t c) u

theorem colMin_le {nn : ℕ} (col : Fin nn → ℚ) (u : Fin nn) :
    colMin col ≤ col u :=
  Layouts.axisLo_le_mem (List.mem_map_of_mem col (List.mem_finRange u))

theorem le_colMax {nn : ℕ} (col : Fin nn → ℚ) (u : Fin nn) :
    col u ≤ colMax col :=
  Layouts.mem_le_axisHi (List.mem_map_of_mem col (List.mem_finRange u))

theorem normCell_nonneg {nn : ℕ} (col : Fin nn → ℚ) (u : Fin nn) :
    0 ≤ normCell col u := by
  unfold normCell
  by_cases h : colMax col = colMin col
  · simp [h]
  · have h1 : colMin col ≤ col u := colMin_le col u
    have h2 : col u ≤ colMax col := le_colMax col u
    have h3 : colMin col < colMax col := lt_of_le_of_ne (h1.trans h2) (Ne.symm h)
    simp only [h, if_false]
    exact div_nonneg (by linarith) (by linarith)

end Centrality

/-- C3: combine is monotonic non-decreasing in each individual weight when all
other weights are held fixed, for every node whose normalised value in the
corresponding column is positive; and a weight missing from the weight vector
defaults to 1.0 (raising one weight cannot lower any such node's combined
score, and a none entry behaves exactly like an explicit weight of 1). -/
theorem C3_combine_monotone {m nn : ℕ} (t : Fin m → Fin nn → ℚ)
    (w w' : Fin m → Option ℚ) (c₀ : Fin m) (u : Fin nn)
    (hother : ∀ c, c ≠ c₀ → w' c = w c)
    (hw : Centrality.getWeight w c₀ ≤ Centrality.getWeight w' c₀)
    (hpos : 0 < Centrality.normCell (t c₀) u) :
    Centrality.combine_centralities t w u ≤ Centrality.combine_centralities t w' u ∧
    Centrality.combine_centralities t (Function.update w c₀ none) u =
      Centrality.combine_centralities t (Function.update w c₀ (some 1)) u := by
  constructor
  · unfold Centrality.combine_centralities
    apply Finset.sum_le_sum
    intro c _
    by_cases hc : c = c₀
    · subst hc
      exact mul_le_mul_of_nonneg_right hw (Centrality.normCell_nonneg _ _)
    · have he : Centrality.getWeight w' c = Centrality.getWeight w c := by
        unfold Centrality.getWeight
        rw [hother c hc]
      rw [he]
  · unfold Centrality.combine_centralities
    apply Finset.sum_congr rfl
    intro c _
    by_cases hc : c = c₀
    · subst hc
      simp [Centrality.getWeight, Function.update]
    · simp [Centrality.getWeight, Function.update, hc]

set_option maxHeartbeats 1000000 in
theorem C3_combine_monotone_witness :
    (∀ c : Fin 1, c ≠ 0 → (fun _ : Fin 1 => (some (1:ℚ))) c = (fun _ : Fin 1 => some (0:ℚ)) c) ∧
    Centrality.getWeight (fun _ : Fin 1 => some (0:ℚ)) 0 ≤
      Centrality.getWeight (fun _ : Fin 1 => (some (1:ℚ))) 0 ∧
    0 < Centrality.normCell ((fun _ : Fin 1 => fun v : Fin 2 => ((v.val : ℚ))) 0) 1 ∧
    Centrality.combine_centralities (fun _ : Fin 1 => fun v : Fin 2 => ((v.val : ℚ)))
        (fun _ : Fin 1 => some (0:ℚ)) 1 ≤
      Centrality.combine_centralities (fun _ : Fin 1 => fun v : Fin 2 => ((v.val : ℚ)))
        (fun _ : Fin 1 => (some (1:ℚ))) 1 := by
  have h1 : ∀ c : Fin 1, c ≠ 0 → (fun _ : Fin 1 => (some (1:ℚ))) c = (fun _ : Fin 1 => some (0:ℚ)) c :=
    fun c hc => absurd (Fin.eq_zero c) hc
  have h2 : Centrality.getWeight (fun _ : Fin 1 => some (0:ℚ)) 0 ≤
      Centrality.getWeight (fun _ : Fin 1 => (some (1:ℚ))) 0 := by
    norm_num [Centrality.getWeight]
  have hfr : List.finRange 2 = [0, 1] := by decide
  have h3 : 0 < Centrality.normCell ((fun _ : Fin 1 => fun v : Fin 2 => ((v.val : ℚ))) 0) 1 := by
    norm_num [Centrality.normCell, Centrality.colMin, Centrality.colMax, hfr,
      Layouts.axisLo, Layouts.axisHi]
  exact ⟨h1, h2, h3, (C3_combine_monotone _ _ _ 0 1 h1 h2 h3).1⟩

namespace Centrality

/-- Modelled from the spec: the per-column descending rank with ties receiving
the mean of the tied ranks (section 4.1; `borda_count` itself is outside the
analysed sources, only its caller on the centrality page is present).  A node
ranked below g strictly greater values inside a tie group of size e receives
rank g + (e + 1) / 2, the mean of the tied rank positions. -/
def descRank {nn : ℕ} (col : Fin nn → ℚ) (u : Fin nn) : ℚ :=
  ((Finset.univ.filter (fun v => col u < col v)).card : ℚ) +
    (((Finset.univ.filter (fun v => col v = col u)).card : ℚ) + 1) / 2

/-- Modelled from the spec: `borda(table, included)`, the sum of the
per-column descending ranks over exactly the columns flagged included
(section 4.1). -/
def borda_count {m nn : ℕ} (t : Fin m → Fin nn → ℚ) (included : Fin m → Bool)
    (u : Fin nn) : ℚ :=
  ∑ c ∈ Finset.univ.filter (fun c => included c = true), descRank (t c) u

theorem descRank_rescale {nn : ℕ} (col : Fin nn → ℚ) (φ : ℚ → ℚ)
    (hφ : StrictMono φ) (u : Fin nn) :
    descRank (fun v => φ (col v)) u = descRank col u := by
  unfold descRank
  have h1 : (Finset.univ.filter (fun v => φ (col u) < φ (col v))) =
      (Finset.univ.filter (fun v => col u < col v)) := by
    apply Finset.filter_congr
    intro v _
    exact ⟨fun h => hφ.lt_iff_lt.mp h, fun h => hφ h⟩
  have h2 : (Finset.univ.filter (fun v => φ (col v) = φ (col u))) =
      (Finset.univ.filter (fun v => col v = col u)) := by
    apply Finset.filter_congr
    intro v _
    exact ⟨fun h => hφ.injective h, fun h => congrArg φ h⟩
  rw [h1, h2]

end Centrality

/-- C4: borda is unchanged when any strictly monotone increasing rescaling is
applied independently to each included column; only columns flagged included
contribute to the sum; and tied values within a column receive one common
(mean) rank. -/
theorem C4_borda_rescale_invariant {m nn : ℕ} (t : Fin m → Fin nn → ℚ)
    (included : Fin m → Bool) (u : Fin nn) (φ : Fin m → ℚ → ℚ)
    (hφ : ∀ c, included c = true → StrictMono (φ c)) :
    Centrality.borda_count (fun c v => φ c (t c v)) included u =
      Centrality.borda_count t included u ∧
    (∀ t' : Fin m → Fin nn → ℚ, (∀ c, included c = true → t' c = t c) →
      Centrality.borda_count t' included u = Centrality.borda_count t included u) ∧
    (∀ c (v v' : Fin nn), t c v = t c v' →
      Centrality.descRank (t c) v = Centrality.descRank (t c) v') := by
  refine ⟨?_, ?_, ?_⟩
  · unfold Centrality.borda_count
    apply Finset.sum_congr rfl
    intro c hc
    exact Centrality.descRank_rescale (t c) (φ c) (hφ c (Finset.mem_filter.mp hc).2) u
  · intro t' ht'
    unfold Centrality.borda_count
    apply Finset.sum_congr rfl
    intro c hc
    rw [ht' c (Finset.mem_filter.mp hc).2]
  · intro c v v' hvv
    unfold Centrality.descRank
    rw [hvv]

theorem C4_borda_rescale_invariant_witness :
    (∀ c : Fin 1, (fun _ : Fin 1 => true) c = true →
      StrictMono ((fun _ : Fin 1 => fun x : ℚ => x + x) c)) ∧
    Centrality.borda_count
        (fun (c : Fin 1) (v : Fin 2) => (fun _ : Fin 1 => fun x : ℚ => x + x) c
          ((fun _ : Fin 1 => fun v : Fin 2 => ((v.val : ℚ))) c v))
        (fun _ : Fin 1 => true) 0 =
      Centrality.borda_count (fun _ : Fin 1 => fun v : Fin 2 => ((v.val : ℚ)))
        (fun _ : Fin 1 => true) 0 := by
  have hφ : ∀ c : Fin 1, (fun _ : Fin 1 => true) c = true →
      StrictMono ((fun _ : Fin 1 => fun x : ℚ => x + x) c) := by
    intro c _
    intro a b hab
    simpa using add_lt_add hab hab
  exact ⟨hφ,
    (C4_borda_rescale_invariant (fun _ : Fin 1 => fun v : Fin 2 => ((v.val : ℚ)))
      (fun _ : Fin 1 => true) 0 (fun _ : Fin 1 => fun x : ℚ => x + x) hφ).1⟩

namespace CSVExport

/-- Modelled from the spec: a centrality table with one column per measure
name and one row per node identifier (section 6: result export; the pandas
DataFrame lives outside the analysed sources). -/
structure CentTable where
  cols : List String
  rows : List (String × List ℚ)

/-- Modelled from the spec and the centrality page: `df.assign(combined=...)`
appends the combined score as a final column named combined. -/
def assignCombined (t : CentTable) (comb : List ℚ) : CentTable :=
  ⟨t.cols ++ [("combined")], (t.rows.zip comb).map (fun rc => (rc.1.1, rc.1.2 ++ [rc.2]))⟩

/-- Modelled from the spec: CSV export of a centrality table (section 6:
header row = measure names plus combined, row index = node identifier).  A
CSV file is embedded as its rows of cells; numeric cells are rendered by the
serialiser `enc` of the hosting library. -/
def exportCSV (enc : ℚ → String) (t : CentTable) : List (List String) :=
  t.cols :: t.rows.map (fun r => r.1 :: r.2.map enc)

/-- Modelled from the spec: decoding the numeric cells of one exported CSV
row. -/
def decodeCells (dec : String → Option ℚ) : List String → Option (List ℚ)
  | [] => some []
  | c :: cs =>
    match dec c, decodeCells dec cs with
    | some v, some vs => some (v :: vs)
    | _, _ => none

/-- Modelled from the spec: re-parsing an exported CSV row, first cell the
node identifier and remaining cells numeric. -/
def parseRow (dec : String → Option ℚ) (r : List String) : Option (String × List ℚ) :=
  match r with
  | [] => none
  | id :: cells =>
    match decodeCells dec cells with
    | some vs => some (id, vs)
    | none => none

/-- Modelled from the spec: re-parsing the node rows of an exported CSV. -/
def parseRows (dec : String → Option ℚ) : List (List String) → Option (List (String × List ℚ))
  | [] => some []
  | r :: rs =>
    match parseRow dec r, parseRows dec rs with
    | some row, some rows => some (row :: rows)
    | _, _ => none

/-- Modelled from the spec: re-parsing an exported CSV, first row the header
of measure names, remaining rows the node rows. -/
def parseCSV (dec : String → Option ℚ) (csv : List (List String)) : Option CentTable :=
  match csv with
  | [] => none
  | header :: dataRows =>
    match parseRows dec dataRows with
    | some rows => some (CentTable.mk header rows)
    | none => none

theorem decodeCells_enc (dec : String → Option ℚ) (enc : ℚ → String) (vs : List ℚ)
    (h : ∀ q ∈ vs, dec (enc q) = some q) : decodeCells dec (vs.map enc) = some vs := by
  induction vs with
  | nil => rfl
  | cons v vs ih =>
    have hv : dec (enc v) = some v := h v (List.mem_cons_self v vs)
    have hrest := ih (fun q hq => h q (List.mem_cons_of_mem v hq))
    simp only [List.map_cons, decodeCells, hv, hrest]

theorem parseRows_export (dec : String → Option ℚ) (enc : ℚ → String)
    (rows : List (String × List ℚ))
    (h : ∀ r ∈ rows, ∀ q ∈ r.2, dec (enc q) = some q) :
    parseRows dec (rows.map (fun r => r.1 :: r.2.map enc)) = some rows := by
  induction rows with
  | nil => rfl
  | cons r rows ih =>
    have hr : parseRow dec (r.1 :: r.2.map enc) = some r := by
      have hc := decodeCells_enc dec enc r.2 (h r (List.mem_cons_self r rows))
      simp only [parseRow, hc]
    have hrest := ih (fun s hs => h s (List.mem_cons_of_mem r hs))
    simp only [List.map_cons, parseRows, hr, hrest]

end CSVExport

/-- C7: exporting a centrality table with its combined column to CSV (header
row equal to the measure names plus combined, row index equal to the node
identifier) and re-parsing the CSV reproduces the original table, provided
the numeric cell serialisation round-trips on the exported values (the
floating-point-tolerance side condition of the claim). -/
theorem C7_csv_round_trip (t : CSVExport.CentTable) (comb : List ℚ)
    (enc : ℚ → String) (dec : String → Option ℚ)
    (hdec : ∀ r ∈ (CSVExport.assignCombined t comb).rows, ∀ q ∈ r.2,
      dec (enc q) = some q) :
    CSVExport.parseCSV dec (CSVExport.exportCSV enc (CSVExport.assignCombined t comb)) =
      some (CSVExport.assignCombined t comb) ∧
    (CSVExport.exportCSV enc (CSVExport.assignCombined t comb)).head? =
      some (t.cols ++ [("combined")]) := by
  constructor
  · have hp := CSVExport.parseRows_export dec enc _ hdec
    simp only [CSVExport.exportCSV, CSVExport.parseCSV, hp]
  · rfl

theorem C7_csv_round_trip_witness :
    (∀ r ∈ (CSVExport.assignCombined (CSVExport.CentTable.mk [("degree")] [(("n1"), [(0:ℚ)])]) [(1:ℚ)]).rows,
      ∀ q ∈ r.2, (fun s => if s = ("z") then some (0:ℚ) else some 1) ((fun q : ℚ => if q = 0 then ("z") else ("o")) q) = some q) ∧
    CSVExport.parseCSV (fun s => if s = ("z") then some (0:ℚ) else some 1)
        (CSVExport.exportCSV (fun q : ℚ => if q = 0 then ("z") else ("o"))
          (CSVExport.assignCombined (CSVExport.CentTable.mk [("degree")] [(("n1"), [(0:ℚ)])]) [(1:ℚ)])) =
      some (CSVExport.assignCombined (CSVExport.CentTable.mk [("degree")] [(("n1"), [(0:ℚ)])]) [(1:ℚ)]) := by
  have hdec : ∀ r ∈ (CSVExport.assignCombined (CSVExport.CentTable.mk [("degree")] [(("n1"), [(0:ℚ)])]) [(1:ℚ)]).rows,
      ∀ q ∈ r.2, (fun s => if s = ("z") then some (0:ℚ) else some 1) ((fun q : ℚ => if q = 0 then ("z") else ("o")) q) = some q := by
    intro r hr q hq
    simp [CSVExport.assignCombined] at hr
    subst hr
    simp at hq
    rcases hq with h | h <;> subst h <;> simp
  exact ⟨hdec,
    (C7_csv_round_trip (CSVExport.CentTable.mk [("degree")] [(("n1"), [(0:ℚ)])]) [(1:ℚ)]
      (fun q : ℚ => if q = 0 then ("z") else ("o"))
      (fun s => if s = ("z") then some (0:ℚ) else some 1) hdec).1⟩

namespace Arrest

/-- Modelled from the spec: the common per-department capacity ceil(N/2)
(section 4.5; the Arrest Optimization Engine is outside the analysed
sources). -/
def cap (nn : ℕ) : ℕ := (nn + 1) / 2

/-- Modelled from the spec: number of nodes assigned to a department; an
assignment maps every node to department 0 (false) or 1 (true). -/
def countDept {nn : ℕ} (a : Fin nn → Bool) (d : Bool) : ℕ :=
  (Finset.univ.filter (fun i => a i = d)).card

/-- Modelled from the spec: the capacity invariant, each department holds at
most ceil(N/2) nodes. -/
def capacityOK {nn : ℕ} (a : Fin nn → Bool) : Prop :=
  countDept a false ≤ cap nn ∧ countDept a true ≤ cap nn

/-- Decidable form of the capacity invariant used inside the solvers. -/
def capacityOKb {nn : ℕ} (a : Fin nn → Bool) : Bool :=
  decide (countDept a false ≤ cap nn) && decide (countDept a true ≤ cap nn)

/-- Modelled from the spec: the initial balanced bipartition of the heuristic
strategy (first ceil(N/2) nodes to department 0, the rest to department 1). -/
def initBalanced (nn : ℕ) : Fin nn → Bool := fun i => decide (cap nn ≤ i.val)

/-- Modelled from the spec: cross-department ("warning") edge count of an
assignment. -/
def crossEdges {nn : ℕ} (A : Fin nn → Fin nn → Bool) (a : Fin nn → Bool) : ℕ :=
  (Finset.univ.filter (fun p : Fin nn × Fin nn =>
    p.1 < p.2 ∧ A p.1 p.2 = true ∧ a p.1 ≠ a p.2)).card

/-- Modelled from the spec: the regret term, penalising cut edges whose
endpoints share a community plus centrality-weighted cross-department
separation (section 4.5). -/
def regret {nn : ℕ} (A : Fin nn → Fin nn → Bool) (comm : Fin nn → ℕ)
    (cent : Fin nn → ℚ) (a : Fin nn → Bool) : ℚ :=
  ((Finset.univ.filter (fun p : Fin nn × Fin nn =>
      p.1 < p.2 ∧ A p.1 p.2 = true ∧ a p.1 ≠ a p.2 ∧ comm p.1 = comm p.2)).card : ℚ) +
    ∑ p ∈ Finset.univ.filter (fun p : Fin nn × Fin nn =>
      p.1 < p.2 ∧ A p.1 p.2 = true ∧ a p.1 ≠ a p.2), (cent p.1 + cent p.2)

/-- Modelled from the spec: the objective, assigned nodes minus beta times
warnings minus alpha times regret (section 4.5). -/
def objective {nn : ℕ} (A : Fin nn → Fin nn → Bool) (comm : Fin nn → ℕ)
    (cent : Fin nn → ℚ) (al be : ℚ) (a : Fin nn → Bool) : ℚ :=
  (nn : ℚ) - be * (crossEdges A a : ℚ) - al * regret A comm cent a

/-- One candidate-inspection step of the exact (ILP) strategy: keep the better
of the incumbent and the candidate, admitting only capacity-feasible
candidates. -/
def pickBetter {nn : ℕ} (obj : (Fin nn → Bool) → ℚ) (best a : Fin nn → Bool) :
    Fin nn → Bool :=
  if capacityOKb a && decide (obj best < obj a) then a else best

/-- Enumeration of every department assignment of nn nodes, one per bitmask
below 2 ^ nn. -/
def allAssigns (nn : ℕ) : List (Fin nn → Bool) :=
  (List.range (2 ^ nn)).map (fun code => fun i => Nat.testBit code i.val)

/-- Modelled from the spec: the exact strategy as an exhaustive integer
program solve, the argmax of the objective over all capacity-feasible
assignments (section 4.5). -/
def exactSolve {nn : ℕ} (obj : (Fin nn → Bool) → ℚ) : Fin nn → Bool :=
  (allAssigns nn).foldl (pickBetter obj) (initBalanced nn)

/-- Modelled from the spec: a Kernighan-Lin-style pairwise move exchanging the
departments of two nodes. -/
def swapDepts {nn : ℕ} (a : Fin nn → Bool) (u v : Fin nn) : Fin nn → Bool :=
  fun i => if i = u then a v else if i = v then a u else a i

/-- Modelled from the spec: one local-search improvement step of the heuristic
fallback, restricted to capacity-preserving swap moves (section 4.5). -/
def klStep {nn : ℕ} (obj : (Fin nn → Bool) → ℚ) (a : Fin nn → Bool)
    (p : Fin nn × Fin nn) : Fin nn → Bool :=
  let a2 := swapDepts a p.1 p.2
  if capacityOKb a2 && decide (obj a < obj a2) then a2 else a

/-- Modelled from the spec: the heuristic fallback strategy, local-search
improvement over all node pairs from the initial balanced bipartition
(section 4.5). -/
def heuristicSolve {nn : ℕ} (obj : (Fin nn → Bool) → ℚ) : Fin nn → Bool :=
  ((List.finRange nn).product (List.finRange nn)).foldl (klStep obj) (initBalanced nn)

/-- Modelled from the spec: the two optimizer strategies of section 4.5. -/
inductive Strategy
  | ilp
  | localSearch

/-- Modelled from the spec: the DepartmentAssignment result entity (section
3): assignment, objective value, cross-department edge count and estimated
effective arrests. -/
structure DepartmentAssignment (nn : ℕ) where
  assign : Fin nn → Bool
  objectiveValue : ℚ
  crossCount : ℕ
  effectiveArrests : ℚ

/-- Modelled from the spec: the common optimizer contract
`optimize(graph, community, centrality, alpha, beta)` dispatching on the
strategy (section 4.5). -/
def optimize {nn : ℕ} (strat : Strategy) (A : Fin nn → Fin nn → Bool)
    (comm : Fin nn → ℕ) (cent : Fin nn → ℚ) (al be : ℚ) :
    DepartmentAssignment nn :=
  let obj := objective A comm cent al be
  let a :=
    match strat with
    | Strategy.ilp => exactSolve obj
    | Strategy.localSearch => heuristicSolve obj
  ⟨a, obj a, crossEdges A a, (nn : ℚ) - be * (crossEdges A a : ℚ)⟩

theorem capacityOKb_iff {nn : ℕ} (a : Fin nn → Bool) :
    capacityOKb a = true ↔ capacityOK a := by
  simp [capacityOKb, capacityOK]

theorem initBalanced_capacity (nn : ℕ) : capacityOK (initBalanced nn) := by
  constructor
  · have hsub : ∀ i ∈ Finset.univ.filter (fun i : Fin nn => initBalanced nn i = false),
        i.val ∈ Finset.range (cap nn) := by
      intro i hi
      have := (Finset.mem_filter.mp hi).2
      simp only [initBalanced, decide_eq_false_iff_not, not_le] at this
      exact Finset.mem_range.mpr this
    have := Finset.card_le_card_of_injOn (fun i => i.val) hsub
      (fun i _ j _ h => Fin.ext h)
    simpa using this
  · have hsub : ∀ i ∈ Finset.univ.filter (fun i : Fin nn => initBalanced nn i = true),
        i.val - cap nn ∈ Finset.range (nn - cap nn) := by
      intro i hi
      have h1 := (Finset.mem_filter.mp hi).2
      simp only [initBalanced, decide_eq_true_eq] at h1
      have h2 := i.isLt
      exact Finset.mem_range.mpr (by omega)
    have hcard := Finset.card_le_card_of_injOn (fun i => i.val - cap nn) hsub
      (fun (i : Fin nn) hi (j : Fin nn) hj h => by
        have h1 := (Finset.mem_filter.mp (Finset.mem_coe.mp hi)).2
        have h2 := (Finset.mem_filter.mp (Finset.mem_coe.mp hj)).2
        simp only [initBalanced, decide_eq_true_eq] at h1 h2
        have h3 : i.val - cap nn = j.val - cap nn := h
        exact Fin.ext (by omega))
    have hle : nn - cap nn ≤ cap nn := by
      unfold cap
      omega
    calc countDept (initBalanced nn) true ≤ (Finset.range (nn - cap nn)).card := hcard
    _ = nn - cap nn := Finset.card_range _
    _ ≤ cap nn := hle

theorem foldl_preserve {σ τ : Type} (P : σ → Prop) (f : σ → τ → σ)
    (hf : ∀ s t, P s → P (f s t)) :
    ∀ (l : List τ) (s : σ), P s → P (l.foldl f s) := by
  intro l
  induction l with
  | nil => intro s hs; exact hs
  | cons t l ih => intro s hs; exact ih (f s t) (hf s t hs)

theorem pickBetter_capacity {nn : ℕ} (obj : (Fin nn → Bool) → ℚ)
    (best a : Fin nn → Bool) (h : capacityOK best) :
    capacityOK (pickBetter obj best a) := by
  unfold pickBetter
  by_cases hc : (capacityOKb a && decide (obj best < obj a)) = true
  · rw [if_pos hc]
    exact (capacityOKb_iff a).mp (Bool.and_elim_left hc)
  · rw [if_neg hc]
    exact h

theorem klStep_capacity {nn : ℕ} (obj : (Fin nn → Bool) → ℚ)
    (a : Fin nn → Bool) (p : Fin nn × Fin nn) (h : capacityOK a) :
    capacityOK (klStep obj a p) := by
  unfold klStep
  by_cases hc : (capacityOKb (swapDepts a p.1 p.2) && decide (obj a < obj (swapDepts a p.1 p.2))) = true
  · simp only [hc, if_true]
    exact (capacityOKb_iff _).mp (Bool.and_elim_left hc)
  · simp only [hc, if_false]
    exact h

end Arrest

/-- C1: for every graph, community labelling, centrality weighting and
parameters, the DepartmentAssignment returned by optimize assigns at most
ceil(N/2) nodes to department 0 and at most ceil(N/2) nodes to department 1,
under both the exact (ILP) strategy and the heuristic fallback strategy. -/
theorem C1_optimize_capacity {nn : ℕ} (strat : Arrest.Strategy)
    (A : Fin nn → Fin nn → Bool) (comm : Fin nn → ℕ) (cent : Fin nn → ℚ)
    (al be : ℚ) :
    Arrest.countDept (Arrest.optimize strat A comm cent al be).assign false ≤ (nn + 1) / 2 ∧
    Arrest.countDept (Arrest.optimize strat A comm cent al be).assign true ≤ (nn + 1) / 2 := by
  have hmain : Arrest.capacityOK (Arrest.optimize strat A comm cent al be).assign := by
    cases strat with
    | ilp =>
      exact Arrest.foldl_preserve Arrest.capacityOK _
        (fun s t hs => Arrest.pickBetter_capacity _ s t hs) _ _
        (Arrest.initBalanced_capacity nn)
    | localSearch =>
      exact Arrest.foldl_preserve Arrest.capacityOK _
        (fun s t hs => Arrest.klStep_capacity _ s t hs) _ _
        (Arrest.initBalanced_capacity nn)
  exact hmain

namespace Removal

/-- Modelled from the spec: neighbours of a node inside the remaining active
set, for the induced subgraph taken at each removal step (section 4.4; the
Kemeny Connectivity Engine is outside the analysed sources). -/
def nbrsIn {nn : ℕ} (A : Fin nn → Fin nn → Bool) (act : List (Fin nn))
    (u : Fin nn) : List (Fin nn) :=
  act.filter (fun w => A u w)

/-- One expansion step of the reachability closure inside the active set. -/
def closureStep {nn : ℕ} (A : Fin nn → Fin nn → Bool) (act : List (Fin nn))
    (S : List (Fin nn)) : List (Fin nn) :=
  (S ++ (S.map (nbrsIn A act)).flatten).dedup

/-- Reachable set from a start node inside the active set (nn expansion steps
always reach the fixpoint on nn nodes). -/
def closure {nn : ℕ} (A : Fin nn → Fin nn → Bool) (act : List (Fin nn))
    (u : Fin nn) : List (Fin nn) :=
  Nat.iterate (closureStep A act) nn [u]

/-- Modelled from the spec: connectivity of the induced subgraph on the active
set, decided by reachability from the first active node. -/
def connectedOn {nn : ℕ} (A : Fin nn → Fin nn → Bool) (act : List (Fin nn)) : Bool :=
  match act with
  | [] => true
  | a :: _ => act.all (fun v => decide (v ∈ closure A act a))

/-- Modelled from the spec: the largest connected component of the induced
subgraph on the active set (the restrict-to-largest-component policy). -/
def largestComponent {nn : ℕ} (A : Fin nn → Fin nn → Bool)
    (act : List (Fin nn)) : List (Fin nn) :=
  act.foldl (fun best u =>
    let c := (closure A act u).filter (fun w => decide (w ∈ act))
    if best.length < c.length then c else best) []

/-- Modelled from the spec: one entry (node, K before, K after, delta) of the
ordered removal trace (section 4.4). -/
structure TraceEntry (nn : ℕ) where
  node : Fin nn
  kBefore : ℚ
  kAfter : ℚ
  delta : ℚ

/-- Modelled from the spec: the subgraph a Kemeny value is computed on: the
active set itself under the connectivity-requiring flag, the largest
connected component under the restrict policy. -/
def evalActive {nn : ℕ} (A : Fin nn → Fin nn → Bool) (restrict : Bool)
    (act : List (Fin nn)) : List (Fin nn) :=
  if restrict then largestComponent A act else act

/-- Modelled from the spec: the node-removal sequencing engine (section 4.4).
The caller-supplied order is replayed one node at a time over the remaining
active set; with `requireConn` the step raises DisconnectedGraphError (the
error payload is the offending node) as soon as the remaining active set is
disconnected, otherwise computation is restricted to the largest connected
component.  The numeric Kemeny evaluator `kem` is the engine parameter the
trace records. -/
def replay {nn : ℕ} (kem : List (Fin nn) → ℚ) (A : Fin nn → Fin nn → Bool)
    (requireConn : Bool) :
    List (Fin nn) → List (Fin nn) → Except (Fin nn) (List (TraceEntry nn))
  | _, [] => Except.ok []
  | act, v :: rest =>
    let act2 := act.erase v
    if requireConn && !(connectedOn A act2) then Except.error v
    else
      match replay kem A requireConn act2 rest with
      | Except.ok tr =>
        Except.ok (⟨v, kem (evalActive A (!requireConn) act),
          kem (evalActive A (!requireConn) act2),
          kem (evalActive A (!requireConn) act2) -
            kem (evalActive A (!requireConn) act)⟩ :: tr)
      | Except.error e => Except.error e

/-- Active set remaining after replaying the first j removals of the order. -/
def actAfter {nn : ℕ} (act : List (Fin nn)) (order : List (Fin nn)) (j : ℕ) :
    List (Fin nn) :=
  (order.take j).foldl List.erase act

theorem actAfter_cons {nn : ℕ} (act : List (Fin nn)) (v : Fin nn)
    (order : List (Fin nn)) (j : ℕ) :
    actAfter act (v :: order) (j + 1) = actAfter (act.erase v) order j := by
  simp [actAfter, List.take_succ_cons]

theorem replay_restrict_ok {nn : ℕ} (kem : List (Fin nn) → ℚ)
    (A : Fin nn → Fin nn → Bool) :
    ∀ (order act : List (Fin nn)), ∃ tr, replay kem A false act order = Except.ok tr := by
  intro order
  induction order with
  | nil => intro act; exact ⟨[], rfl⟩
  | cons v rest ih =>
    intro act
    obtain ⟨tr, htr⟩ := ih (act.erase v)
    refine ⟨⟨v, kem (evalActive A true act), kem (evalActive A true (act.erase v)),
      kem (evalActive A true (act.erase v)) - kem (evalActive A true act)⟩ :: tr, ?_⟩
    simp [replay, htr]

end Removal

namespace Removal

theorem replay_require_ok {nn : ℕ} (kem : List (Fin nn) → ℚ)
    (A : Fin nn → Fin nn → Bool) :
    ∀ (order act : List (Fin nn)),
      (∀ j, j < order.length → connectedOn A (actAfter act order (j + 1)) = true) →
      ∃ tr, replay kem A true act order = Except.ok tr := by
  intro order
  induction order with
  | nil => intro act _; exact ⟨[], rfl⟩
  | cons v rest ih =>
    intro act hconn
    have h0 : connectedOn A (act.erase v) = true := by
      have := hconn 0 (Nat.succ_pos _)
      rwa [actAfter_cons, actAfter] at this
    have hrest : ∀ j, j < rest.length →
        connectedOn A (actAfter (act.erase v) rest (j + 1)) = true := by
      intro j hj
      have := hconn (j + 1) (Nat.succ_lt_succ hj)
      rwa [actAfter_cons] at this
    obtain ⟨tr, htr⟩ := ih (act.erase v) hrest
    refine ⟨⟨v, kem (evalActive A false act), kem (evalActive A false (act.erase v)),
      kem (evalActive A false (act.erase v)) - kem (evalActive A false act)⟩ :: tr, ?_⟩
    simp [replay, h0, htr]

theorem replay_require_error {nn : ℕ} (kem : List (Fin nn) → ℚ)
    (A : Fin nn → Fin nn → Bool) :
    ∀ (order act : List (Fin nn)) (j : ℕ) (hj : j < order.length),
      (∀ i, i < j → connectedOn A (actAfter act order (i + 1)) = true) →
      connectedOn A (actAfter act order (j + 1)) = false →
      replay kem A true act order = Except.error (order.get ⟨j, hj⟩) := by
  intro order
  induction order with
  | nil => intro act j hj; cases (Nat.not_lt_zero j) hj
  | cons v rest ih =>
    intro act j hj hpre hfail
    cases j with
    | zero =>
      have h0 : connectedOn A (act.erase v) = false := by
        rwa [actAfter_cons, actAfter] at hfail
      simp [replay, h0]
    | succ j2 =>
      have h0 : connectedOn A (act.erase v) = true := by
        have := hpre 0 (Nat.succ_pos _)
        rwa [actAfter_cons, actAfter] at this
      have hpre2 : ∀ i, i < j2 → connectedOn A (actAfter (act.erase v) rest (i + 1)) = true := by
        intro i hi
        have := hpre (i + 1) (Nat.succ_lt_succ hi)
        rwa [actAfter_cons] at this
      have hfail2 : connectedOn A (actAfter (act.erase v) rest (j2 + 1)) = false := by
        rwa [actAfter_cons] at hfail
      have hrec := ih (act.erase v) j2 (Nat.lt_of_succ_lt_succ hj) hpre2 hfail2
      simp [replay, h0, hrec]

end Removal

/-- C6: during Kemeny node-removal sequencing, for every supplied removal
order: with the connectivity-requiring flag the engine raises
DisconnectedGraphError exactly at the first step whose remaining active set
is disconnected (and completes normally when no step disconnects), and with
the restrict-to-largest-component policy it never raises
DisconnectedGraphError for any order, in particular not when removing the
highest-degree node. -/
theorem C6_removal_error_policy {nn : ℕ} (kem : List (Fin nn) → ℚ)
    (A : Fin nn → Fin nn → Bool) (act order : List (Fin nn)) :
    (∃ tr, Removal.replay kem A false act order = Except.ok tr) ∧
    ((∀ j, j < order.length →
        Removal.connectedOn A (Removal.actAfter act order (j + 1)) = true) →
      ∃ tr, Removal.replay kem A true act order = Except.ok tr) ∧
    (∀ j (hj : j < order.length),
      (∀ i, i < j →
        Removal.connectedOn A (Removal.actAfter act order (i + 1)) = true) →
      Removal.connectedOn A (Removal.actAfter act order (j + 1)) = false →
      Removal.replay kem A true act order = Except.error (order.get ⟨j, hj⟩)) :=
  ⟨Removal.replay_restrict_ok kem A order act,
   Removal.replay_require_ok kem A order act,
   fun j hj hpre hfail => Removal.replay_require_error kem A order act j hj hpre hfail⟩

theorem C6_removal_error_policy_witness :
    (∃ tr, Removal.replay (fun _ => (0:ℚ))
      (fun i j : Fin 3 => decide (i.val + 1 = j.val) || decide (j.val + 1 = i.val))
      false [0, 1, 2] [1] = Except.ok tr) ∧
    Removal.connectedOn
      (fun i j : Fin 3 => decide (i.val + 1 = j.val) || decide (j.val + 1 = i.val))
      (Removal.actAfter [0, 1, 2] [1] 1) = false ∧
    Removal.replay (fun _ => (0:ℚ))
      (fun i j : Fin 3 => decide (i.val + 1 = j.val) || decide (j.val + 1 = i.val))
      true [0, 1, 2] [1] = Except.error 1 := by
  have hfail : Removal.connectedOn
      (fun i j : Fin 3 => decide (i.val + 1 = j.val) || decide (j.val + 1 = i.val))
      (Removal.actAfter [0, 1, 2] [1] 1) = false := by decide
  refine ⟨(C6_removal_error_policy (fun _ => (0:ℚ)) _ [0, 1, 2] [1]).1, hfail, ?_⟩
  have := (C6_removal_error_policy (fun _ => (0:ℚ))
    (fun i j : Fin 3 => decide (i.val + 1 = j.val) || decide (j.val + 1 = i.val))
    [0, 1, 2] [1]).2.2 0 (by decide) (fun i hi => absurd hi (Nat.not_lt_zero i)) hfail
  simpa using this

namespace RoleSim

/-- Modelled from the spec: the value of a maximum-weight bipartite matching
between two neighbour lists under the current similarity R (section 4.2; the
Role Identification Engine is outside the analysed sources).  Each head
element is either left unmatched or matched to one element of the other side,
and the best option is kept. -/
def matchVal {α : Type} [DecidableEq α] (R : α → α → ℚ) : List α → List α → ℚ
  | [], _ => 0
  | a :: S, T => (T.map (fun b => R a b + matchVal R S (T.erase b))).foldr max (matchVal R S T)

theorem le_foldr_max (l : List ℚ) (b : ℚ) : b ≤ l.foldr max b := by
  induction l with
  | nil => exact le_refl b
  | cons x xs ih => exact ih.trans (le_max_right x (xs.foldr max b))

theorem mem_le_foldr_max {l : List ℚ} {x : ℚ} (b : ℚ) (hx : x ∈ l) :
    x ≤ l.foldr max b := by
  induction l with
  | nil => cases hx
  | cons y ys ih =>
    rcases List.mem_cons.mp hx with h | h
    · subst h; exact le_max_left x (ys.foldr max b)
    · exact (ih h).trans (le_max_right y (ys.foldr max b))

theorem foldr_max_cases (l : List ℚ) (b : ℚ) :
    l.foldr max b = b ∨ l.foldr max b ∈ l := by
  induction l with
  | nil => exact Or.inl rfl
  | cons x xs ih =>
    rcases le_total x (xs.foldr max b) with h | h
    · rw [show (x :: xs).foldr max b = max x (xs.foldr max b) from rfl, max_eq_right h]
      rcases ih with h2 | h2
      · exact Or.inl h2
      · exact Or.inr (List.mem_cons_of_mem x h2)
    · rw [show (x :: xs).foldr max b = max x (xs.foldr max b) from rfl, max_eq_left h]
      exact Or.inr (List.mem_cons_self x xs)

theorem foldr_max_le {l : List ℚ} {b c : ℚ} (hb : b ≤ c) (hl : ∀ x ∈ l, x ≤ c) :
    l.foldr max b ≤ c := by
  induction l with
  | nil => exact hb
  | cons x xs ih =>
    exact max_le (hl x (List.mem_cons_self x xs))
      (ih (fun y hy => hl y (List.mem_cons_of_mem x hy)))

theorem matchVal_nonneg {α : Type} [DecidableEq α] (R : α → α → ℚ) :
    ∀ (S T : List α), 0 ≤ matchVal R S T := by
  intro S
  induction S with
  | nil => intro T; exact le_refl 0
  | cons a S ih =>
    intro T
    exact (ih T).trans (le_foldr_max _ _)

theorem matchVal_le_left {α : Type} [DecidableEq α] (R : α → α → ℚ)
    (hR1 : ∀ x y, R x y ≤ 1) :
    ∀ (S T : List α), matchVal R S T ≤ (S.length : ℚ) := by
  intro S
  induction S with
  | nil => intro T; simp [matchVal]
  | cons a S ih =>
    intro T
    apply foldr_max_le
    · calc matchVal R S T ≤ (S.length : ℚ) := ih T
      _ ≤ ((a :: S).length : ℚ) := by push_cast [List.length_cons]; linarith
    · intro x hx
      obtain ⟨b, _, hb⟩ := List.mem_map.mp hx
      subst hb
      calc R a b + matchVal R S (T.erase b) ≤ 1 + (S.length : ℚ) :=
        add_le_add (hR1 a b) (ih (T.erase b))
      _ = ((a :: S).length : ℚ) := by push_cast [List.length_cons]; ring

theorem matchVal_le_right {α : Type} [DecidableEq α] (R : α → α → ℚ)
    (hR1 : ∀ x y, R x y ≤ 1) :
    ∀ (S T : List α), matchVal R S T ≤ (T.length : ℚ) := by
  intro S
  induction S with
  | nil => intro T; simp [matchVal]
  | cons a S ih =>
    intro T
    apply foldr_max_le
    · exact ih T
    · intro x hx
      obtain ⟨b, hbT, hb⟩ := List.mem_map.mp hx
      subst hb
      have hlen : (T.erase b).length = T.length - 1 := List.length_erase_of_mem hbT
      have hpos : 1 ≤ T.length := List.length_pos.mpr (List.ne_nil_of_mem hbT)
      calc R a b + matchVal R S (T.erase b) ≤ 1 + ((T.erase b).length : ℚ) :=
        add_le_add (hR1 a b) (ih (T.erase b))
      _ = (T.length : ℚ) := by
        rw [hlen]
        push_cast [Nat.cast_sub hpos]
        ring

end RoleSim

namespace RoleSim

theorem matchVal_cons {α : Type} [DecidableEq α] (R : α → α → ℚ) (a : α)
    (S T : List α) :
    matchVal R (a :: S) T =
      (T.map (fun b => R a b + matchVal R S (T.erase b))).foldr max (matchVal R S T) :=
  rfl

/-- A bipartite matching between two node lists: a pair list with pairwise
distinct left ends from the first list and pairwise distinct right ends from
the second list. -/
def IsMatching {α : Type} (p : List (α × α)) (S T : List α) : Prop :=
  (p.map Prod.fst).Nodup ∧ (p.map Prod.snd).Nodup ∧ ∀ q ∈ p, q.1 ∈ S ∧ q.2 ∈ T

/-- Total similarity weight of a matching. -/
def mWeight {α : Type} (R : α → α → ℚ) (p : List (α × α)) : ℚ :=
  (p.map (fun q => R q.1 q.2)).sum

theorem matchVal_pick {α : Type} [DecidableEq α] (R : α → α → ℚ) :
    ∀ (S T : List α) (a b : α), a ∈ S → b ∈ T → T.Nodup →
      R a b + matchVal R (S.erase a) (T.erase b) ≤ matchVal R S T := by
  intro S
  induction S with
  | nil => intro T a b ha; cases ha
  | cons a2 S2 ih =>
    intro T a b ha hb hT
    by_cases haa : a = a2
    · subst haa
      rw [List.erase_cons_head, matchVal_cons]
      exact mem_le_foldr_max _ (List.mem_map.mpr ⟨b, hb, rfl⟩)
    · have haS2 : a ∈ S2 := by
        rcases List.mem_cons.mp ha with h | h
        · exact absurd h haa
        · exact h
      have herase : (a2 :: S2).erase a = a2 :: S2.erase a :=
        List.erase_cons_tail (by simp [Ne.symm haa])
      rw [herase]
      have hbound : matchVal R S2 T ≤ matchVal R (a2 :: S2) T := by
        rw [matchVal_cons]
        exact le_foldr_max _ _
      rcases foldr_max_cases
          ((T.erase b).map (fun c => R a2 c + matchVal R (S2.erase a) ((T.erase b).erase c)))
          (matchVal R (S2.erase a) (T.erase b)) with hcase | hcase
      · have hX : matchVal R (a2 :: S2.erase a) (T.erase b) =
            matchVal R (S2.erase a) (T.erase b) := by
          rw [matchVal_cons]
          exact hcase
        have hih := ih T a b haS2 hb hT
        rw [hX]
        linarith
      · have hX : matchVal R (a2 :: S2.erase a) (T.erase b) ∈
            (T.erase b).map (fun c => R a2 c + matchVal R (S2.erase a) ((T.erase b).erase c)) := by
          rw [matchVal_cons]
          exact hcase
        obtain ⟨c, hcTb, hc⟩ := List.mem_map.mp hX
        obtain ⟨hcb, hcT⟩ := (List.Nodup.mem_erase_iff hT).mp hcTb
        have hbTc : b ∈ T.erase c := (List.Nodup.mem_erase_iff hT).mpr ⟨Ne.symm hcb, hb⟩
        have hcomm : (T.erase b).erase c = (T.erase c).erase b := List.erase_comm b c T
        rw [hcomm] at hc
        have hih := ih (T.erase c) a b haS2 hbTc (hT.erase c)
        have hout : R a2 c + matchVal R S2 (T.erase c) ≤ matchVal R (a2 :: S2) T := by
          rw [matchVal_cons]
          exact mem_le_foldr_max _ (List.mem_map.mpr ⟨c, hcT, rfl⟩)
        linarith

theorem mWeight_le_matchVal {α : Type} [DecidableEq α] (R : α → α → ℚ) :
    ∀ (p : List (α × α)) (S T : List α), T.Nodup → IsMatching p S T →
      mWeight R p ≤ matchVal R S T := by
  intro p
  induction p with
  | nil => intro S T _ _; exact matchVal_nonneg R S T
  | cons q p2 ih =>
    intro S T hT hm
    obtain ⟨hfst, hsnd, hmem⟩ := hm
    have hq := hmem q (List.mem_cons_self q p2)
    have hfst2 : q.1 ∉ p2.map Prod.fst := (List.nodup_cons.mp hfst).1
    have hsnd2 : q.2 ∉ p2.map Prod.snd := (List.nodup_cons.mp hsnd).1
    have hm2 : IsMatching p2 (S.erase q.1) (T.erase q.2) := by
      refine ⟨(List.nodup_cons.mp hfst).2, (List.nodup_cons.mp hsnd).2, ?_⟩
      intro r hr
      have hrmem := hmem r (List.mem_cons_of_mem q hr)
      constructor
      · have hne : r.1 ≠ q.1 := by
          intro he
          exact hfst2 (he ▸ List.mem_map_of_mem Prod.fst hr)
        exact (List.mem_erase_of_ne hne).mpr hrmem.1
      · have hne : r.2 ≠ q.2 := by
          intro he
          exact hsnd2 (he ▸ List.mem_map_of_mem Prod.snd hr)
        exact (List.mem_erase_of_ne hne).mpr hrmem.2
    have hih := ih (S.erase q.1) (T.erase q.2) (hT.erase q.2) hm2
    have hpick := matchVal_pick R S T q.1 q.2 hq.1 hq.2 hT
    have hunfold : mWeight R (q :: p2) = R q.1 q.2 + mWeight R p2 := by
      simp [mWeight]
    rw [hunfold]
    linarith

theorem matchVal_achieved {α : Type} [DecidableEq α] (R : α → α → ℚ) :
    ∀ (S T : List α), S.Nodup → T.Nodup →
      ∃ p, IsMatching p S T ∧ mWeight R p = matchVal R S T := by
  intro S
  induction S with
  | nil =>
    intro T _ _
    exact ⟨[], ⟨List.nodup_nil, List.nodup_nil, fun q hq => absurd hq (List.not_mem_nil q)⟩, rfl⟩
  | cons a S2 ih =>
    intro T hS hT
    have haS2 : a ∉ S2 := (List.nodup_cons.mp hS).1
    have hS2 : S2.Nodup := (List.nodup_cons.mp hS).2
    rcases foldr_max_cases (T.map (fun b => R a b + matchVal R S2 (T.erase b)))
        (matchVal R S2 T) with hcase | hcase
    · obtain ⟨p, hp, hw⟩ := ih T hS2 hT
      refine ⟨p, ⟨hp.1, hp.2.1, ?_⟩, ?_⟩
      · intro q hq
        exact ⟨List.mem_cons_of_mem a (hp.2.2 q hq).1, (hp.2.2 q hq).2⟩
      · rw [matchVal_cons, hcase]
        exact hw
    · obtain ⟨b, hbT, hb⟩ := List.mem_map.mp hcase
      obtain ⟨p2, hp2, hw2⟩ := ih (T.erase b) hS2 (hT.erase b)
      refine ⟨(a, b) :: p2, ⟨?_, ?_, ?_⟩, ?_⟩
      · apply List.nodup_cons.mpr
        refine ⟨?_, hp2.1⟩
        intro hmem
        obtain ⟨r, hr, hre⟩ := List.mem_map.mp hmem
        have h1 : r.1 ∈ S2 := (hp2.2.2 r hr).1
        rw [hre] at h1
        exact haS2 h1
      · apply List.nodup_cons.mpr
        refine ⟨?_, hp2.2.1⟩
        intro hmem
        obtain ⟨r, hr, hre⟩ := List.mem_map.mp hmem
        have := (hp2.2.2 r hr).2
        rw [hre] at this
        exact ((List.Nodup.mem_erase_iff hT).mp this).1 rfl
      · intro q hq
        rcases List.mem_cons.mp hq with h | h
        · subst h
          exact ⟨List.mem_cons_self a S2, hbT⟩
        · exact ⟨List.mem_cons_of_mem a (hp2.2.2 q h).1,
            List.mem_of_mem_erase (hp2.2.2 q h).2⟩
      · have hunfold : mWeight R ((a, b) :: p2) = R a b + mWeight R p2 := by
          simp [mWeight]
        rw [hunfold, hw2, matchVal_cons, ← hb]

theorem isMatching_swap {α : Type} (p : List (α × α)) (S T : List α)
    (h : IsMatching p S T) : IsMatching (p.map Prod.swap) T S := by
  obtain ⟨h1, h2, h3⟩ := h
  refine ⟨?_, ?_, ?_⟩
  · have : (p.map Prod.swap).map Prod.fst = p.map Prod.snd := by
      simp [List.map_map, Function.comp_def]
    rw [this]; exact h2
  · have : (p.map Prod.swap).map Prod.snd = p.map Prod.fst := by
      simp [List.map_map, Function.comp_def]
    rw [this]; exact h1
  · intro q hq
    obtain ⟨r, hr, hre⟩ := List.mem_map.mp hq
    subst hre
    exact ⟨(h3 r hr).2, (h3 r hr).1⟩

theorem mWeight_swap {α : Type} (R : α → α → ℚ) (hR : ∀ x y, R x y = R y x)
    (p : List (α × α)) : mWeight R (p.map Prod.swap) = mWeight R p := by
  unfold mWeight
  rw [List.map_map]
  apply congrArg List.sum
  apply List.map_congr_left
  intro q _
  show R q.2 q.1 = R q.1 q.2
  exact hR q.2 q.1

theorem matchVal_symm {α : Type} [DecidableEq α] (R : α → α → ℚ)
    (hR : ∀ x y, R x y = R y x) (S T : List α) (hS : S.Nodup) (hT : T.Nodup) :
    matchVal R S T = matchVal R T S := by
  apply le_antisymm
  · obtain ⟨p, hp, hw⟩ := matchVal_achieved R S T hS hT
    calc matchVal R S T = mWeight R p := hw.symm
    _ = mWeight R (p.map Prod.swap) := (mWeight_swap R hR p).symm
    _ ≤ matchVal R T S := mWeight_le_matchVal R _ T S hS (isMatching_swap p S T hp)
  · obtain ⟨p, hp, hw⟩ := matchVal_achieved R T S hT hS
    calc matchVal R T S = mWeight R p := hw.symm
    _ = mWeight R (p.map Prod.swap) := (mWeight_swap R hR p).symm
    _ ≤ matchVal R S T := mWeight_le_matchVal R _ S T hT (isMatching_swap p T S hp)

theorem sum_map_add {β : Type} (m : List β) (g h : β → ℚ) :
    (m.map (fun b => g b + h b)).sum = (m.map g).sum + (m.map h).sum := by
  induction m with
  | nil => simp
  | cons x xs ih =>
    simp only [List.map_cons, List.sum_cons, ih]
    ring

theorem sum_map_swap {β γ : Type} (f : β → γ → ℚ) (l : List β) (m : List γ) :
    (l.map (fun a => (m.map (f a)).sum)).sum =
      (m.map (fun b => (l.map (fun a => f a b)).sum)).sum := by
  induction l with
  | nil => simp
  | cons a l ih =>
    simp only [List.map_cons, List.sum_cons, ih, ← sum_map_add]

/-- Modelled from the spec: the neighbour list of a node (section 4.2). -/
def nbrs {nn : ℕ} (A : Fin nn → Fin nn → Bool) (u : Fin nn) : List (Fin nn) :=
  (List.finRange nn).filter (fun w => A u w)

/-- Node degree, the length of its neighbour list. -/
def deg {nn : ℕ} (A : Fin nn → Fin nn → Bool) (u : Fin nn) : ℕ :=
  (nbrs A u).length

theorem nbrs_nodup {nn : ℕ} (A : Fin nn → Fin nn → Bool) (u : Fin nn) :
    (nbrs A u).Nodup :=
  (List.nodup_finRange nn).filter _

/-- Modelled from the spec: the normalised maximum-matching term of the
RoleSim update, the matching value divided by the larger neighbourhood size
(a zero denominator, two isolated nodes, contributes zero). -/
def matchNorm {nn : ℕ} (A : Fin nn → Fin nn → Bool) (R : Fin nn → Fin nn → ℚ)
    (u v : Fin nn) : ℚ :=
  matchVal R (nbrs A u) (nbrs A v) / ((max (deg A u) (deg A v) : ℕ) : ℚ)

/-- Sum of similarities over all neighbour pairs, the unmatched-pair mass the
RoleSim* update reweights against the matched mass. -/
def allSum {nn : ℕ} (A : Fin nn → Fin nn → Bool) (R : Fin nn → Fin nn → ℚ)
    (u v : Fin nn) : ℚ :=
  ((nbrs A u).map (fun a => ((nbrs A v).map (fun c => R a c)).sum)).sum

/-- Modelled from the spec: the normalised all-pairs term of the RoleSim*
update. -/
def allNorm {nn : ℕ} (A : Fin nn → Fin nn → Bool) (R : Fin nn → Fin nn → ℚ)
    (u v : Fin nn) : ℚ :=
  allSum A R u v / ((deg A u * deg A v : ℕ) : ℚ)

theorem matchNorm_nonneg {nn : ℕ} (A : Fin nn → Fin nn → Bool)
    (R : Fin nn → Fin nn → ℚ) (u v : Fin nn) : 0 ≤ matchNorm A R u v :=
  div_nonneg (matchVal_nonneg R _ _) (Nat.cast_nonneg _)

theorem matchNorm_le_one {nn : ℕ} (A : Fin nn → Fin nn → Bool)
    (R : Fin nn → Fin nn → ℚ) (hR1 : ∀ x y, R x y ≤ 1) (u v : Fin nn) :
    matchNorm A R u v ≤ 1 := by
  unfold matchNorm
  rcases Nat.eq_zero_or_pos (max (deg A u) (deg A v)) with h | h
  · rw [h]
    simp
  · have hpos : (0:ℚ) < ((max (deg A u) (deg A v) : ℕ) : ℚ) := by exact_mod_cast h
    rw [div_le_one hpos]
    calc matchVal R (nbrs A u) (nbrs A v) ≤ ((nbrs A u).length : ℚ) :=
      matchVal_le_left R hR1 _ _
    _ ≤ ((max (deg A u) (deg A v) : ℕ) : ℚ) := by
      exact_mod_cast Nat.le_max_left (deg A u) (deg A v)

theorem matchNorm_symm {nn : ℕ} (A : Fin nn → Fin nn → Bool)
    (R : Fin nn → Fin nn → ℚ) (hR : ∀ x y, R x y = R y x) (u v : Fin nn) :
    matchNorm A R u v = matchNorm A R v u := by
  unfold matchNorm
  rw [matchVal_symm R hR (nbrs A u) (nbrs A v) (nbrs_nodup A u) (nbrs_nodup A v),
    Nat.max_comm]

theorem allSum_nonneg {nn : ℕ} (A : Fin nn → Fin nn → Bool)
    (R : Fin nn → Fin nn → ℚ) (hR0 : ∀ x y, 0 ≤ R x y) (u v : Fin nn) :
    0 ≤ allSum A R u v := by
  apply List.sum_nonneg
  intro x hx
  obtain ⟨a, _, ha⟩ := List.mem_map.mp hx
  subst ha
  apply List.sum_nonneg
  intro y hy
  obtain ⟨c, _, hc⟩ := List.mem_map.mp hy
  subst hc
  exact hR0 a c

theorem allSum_le {nn : ℕ} (A : Fin nn → Fin nn → Bool)
    (R : Fin nn → Fin nn → ℚ) (hR1 : ∀ x y, R x y ≤ 1) (u v : Fin nn) :
    allSum A R u v ≤ ((deg A u * deg A v : ℕ) : ℚ) := by
  have hinner : ∀ a : Fin nn, ((nbrs A v).map (fun c => R a c)).sum ≤ ((deg A v : ℕ) : ℚ) := by
    intro a
    have := List.sum_le_card_nsmul ((nbrs A v).map (fun c => R a c)) 1 (by
      intro x hx
      obtain ⟨c, _, hc⟩ := List.mem_map.mp hx
      subst hc
      exact hR1 a c)
    simpa [deg, nsmul_eq_mul] using this
  have houter := List.sum_le_card_nsmul
    ((nbrs A u).map (fun a => ((nbrs A v).map (fun c => R a c)).sum))
    ((deg A v : ℕ) : ℚ) (by
      intro x hx
      obtain ⟨a, _, ha⟩ := List.mem_map.mp hx
      subst ha
      exact hinner a)
  have hcast : (((nbrs A u).map (fun a => ((nbrs A v).map (fun c => R a c)).sum)).length) •
      ((deg A v : ℕ) : ℚ) = ((deg A u * deg A v : ℕ) : ℚ) := by
    simp [deg, nsmul_eq_mul]
  rw [hcast] at houter
  exact houter

theorem allSum_symm {nn : ℕ} (A : Fin nn → Fin nn → Bool)
    (R : Fin nn → Fin nn → ℚ) (hR : ∀ x y, R x y = R y x) (u v : Fin nn) :
    allSum A R u v = allSum A R v u := by
  unfold allSum
  rw [sum_map_swap]
  apply congrArg List.sum
  apply List.map_congr_left
  intro c _
  apply congrArg List.sum
  apply List.map_congr_left
  intro a _
  exact hR a c

theorem allNorm_nonneg {nn : ℕ} (A : Fin nn → Fin nn → Bool)
    (R : Fin nn → Fin nn → ℚ) (hR0 : ∀ x y, 0 ≤ R x y) (u v : Fin nn) :
    0 ≤ allNorm A R u v :=
  div_nonneg (allSum_nonneg A R hR0 u v) (Nat.cast_nonneg _)

theorem allNorm_le_one {nn : ℕ} (A : Fin nn → Fin nn → Bool)
    (R : Fin nn → Fin nn → ℚ) (hR1 : ∀ x y, R x y ≤ 1) (u v : Fin nn) :
    allNorm A R u v ≤ 1 := by
  unfold allNorm
  rcases Nat.eq_zero_or_pos (deg A u * deg A v) with h | h
  · rw [h]
    simp
  · have hpos : (0:ℚ) < ((deg A u * deg A v : ℕ) : ℚ) := by exact_mod_cast h
    rw [div_le_one hpos]
    exact allSum_le A R hR1 u v

theorem allNorm_symm {nn : ℕ} (A : Fin nn → Fin nn → Bool)
    (R : Fin nn → Fin nn → ℚ) (hR : ∀ x y, R x y = R y x) (u v : Fin nn) :
    allNorm A R u v = allNorm A R v u := by
  unfold allNorm
  rw [allSum_symm A R hR, Nat.mul_comm]

/-- Modelled from the spec: the RoleSim initialisation, 1 on the diagonal and
a baseline constant elsewhere (section 4.2). -/
def simInit {nn : ℕ} (b : ℚ) : Fin nn → Fin nn → ℚ :=
  fun u v => if u = v then 1 else b

/-- Modelled from the spec: one RoleSim iteration, the normalised
maximum-matching value between the two neighbourhoods blended with the decay
factor beta (higher beta, higher floor), with maximal self-similarity kept on
the diagonal (section 4.2 and the SimilarityMatrix invariant of section 3). -/
def roleSimUpdate {nn : ℕ} (A : Fin nn → Fin nn → Bool) (be : ℚ)
    (R : Fin nn → Fin nn → ℚ) : Fin nn → Fin nn → ℚ :=
  fun u v => if u = v then 1 else (1 - be) * matchNorm A R u v + be

/-- Modelled from the spec: the RoleSim similarity matrix after a bounded
number of iterations from the baseline initialisation (section 4.2). -/
def roleSim {nn : ℕ} (A : Fin nn → Fin nn → Bool) (be b : ℚ) (k : ℕ) :
    Fin nn → Fin nn → ℚ :=
  (roleSimUpdate A be)^[k] (simInit b)

/-- Modelled from the spec: one RoleSim* iteration, additionally
reweighting matched against unmatched neighbour-pair contributions by lambda
(section 4.2). -/
def roleSimStarUpdate {nn : ℕ} (A : Fin nn → Fin nn → Bool) (be lam : ℚ)
    (R : Fin nn → Fin nn → ℚ) : Fin nn → Fin nn → ℚ :=
  fun u v => if u = v then 1 else
    (1 - be) * (lam * matchNorm A R u v + (1 - lam) * allNorm A R u v) + be

/-- Modelled from the spec: the RoleSim* similarity matrix after a bounded
number of iterations (section 4.2). -/
def roleSimStar {nn : ℕ} (A : Fin nn → Fin nn → Bool) (be lam b : ℚ) (k : ℕ) :
    Fin nn → Fin nn → ℚ :=
  (roleSimStarUpdate A be lam)^[k] (simInit b)

/-- The SimilarityMatrix invariant of spec section 3: symmetric, entries in
[0,1], maximal self-similarity 1 on the diagonal. -/
def SimInv {nn : ℕ} (R : Fin nn → Fin nn → ℚ) : Prop :=
  (∀ u v, R u v = R v u) ∧ (∀ u v, 0 ≤ R u v ∧ R u v ≤ 1) ∧ ∀ u, R u u = 1

theorem simInv_simInit {nn : ℕ} (b : ℚ) (hb0 : 0 ≤ b) (hb1 : b ≤ 1) :
    SimInv (@simInit nn b) := by
  refine ⟨?_, ?_, ?_⟩
  · intro u v
    by_cases h : u = v
    · subst h; rfl
    · simp [simInit, h, Ne.symm h]
  · intro u v
    by_cases h : u = v
    · subst h; simp [simInit]
    · simp [simInit, h, hb0, hb1]
  · intro u
    simp [simInit]

theorem simInv_roleSimUpdate {nn : ℕ} (A : Fin nn → Fin nn → Bool) (be : ℚ)
    (hbe0 : 0 ≤ be) (hbe1 : be ≤ 1) (R : Fin nn → Fin nn → ℚ) (hR : SimInv R) :
    SimInv (roleSimUpdate A be R) := by
  obtain ⟨hsym, hbnd, hdiag⟩ := hR
  have hR1 : ∀ x y, R x y ≤ 1 := fun x y => (hbnd x y).2
  refine ⟨?_, ?_, ?_⟩
  · intro u v
    by_cases h : u = v
    · subst h; rfl
    · simp only [roleSimUpdate, if_neg h, if_neg (Ne.symm h)]
      rw [matchNorm_symm A R hsym]
  · intro u v
    by_cases h : u = v
    · subst h; simp [roleSimUpdate]
    · simp only [roleSimUpdate, if_neg h]
      have hm0 := matchNorm_nonneg A R u v
      have hm1 := matchNorm_le_one A R hR1 u v
      constructor
      · have := mul_nonneg (by linarith : (0:ℚ) ≤ 1 - be) hm0
        linarith
      · have := mul_le_mul_of_nonneg_left hm1 (by linarith : (0:ℚ) ≤ 1 - be)
        linarith
  · intro u
    simp [roleSimUpdate]

theorem simInv_roleSimStarUpdate {nn : ℕ} (A : Fin nn → Fin nn → Bool)
    (be lam : ℚ) (hbe0 : 0 ≤ be) (hbe1 : be ≤ 1) (hlam0 : 0 ≤ lam)
    (hlam1 : lam ≤ 1) (R : Fin nn → Fin nn → ℚ) (hR : SimInv R) :
    SimInv (roleSimStarUpdate A be lam R) := by
  obtain ⟨hsym, hbnd, hdiag⟩ := hR
  have hR0 : ∀ x y, 0 ≤ R x y := fun x y => (hbnd x y).1
  have hR1 : ∀ x y, R x y ≤ 1 := fun x y => (hbnd x y).2
  refine ⟨?_, ?_, ?_⟩
  · intro u v
    by_cases h : u = v
    · subst h; rfl
    · simp only [roleSimStarUpdate, if_neg h, if_neg (Ne.symm h)]
      rw [matchNorm_symm A R hsym, allNorm_symm A R hsym]
  · intro u v
    by_cases h : u = v
    · subst h; simp [roleSimStarUpdate]
    · simp only [roleSimStarUpdate, if_neg h]
      have hm0 := matchNorm_nonneg A R u v
      have hm1 := matchNorm_le_one A R hR1 u v
      have ha0 := allNorm_nonneg A R hR0 u v
      have ha1 := allNorm_le_one A R hR1 u v
      have hmix0 : 0 ≤ lam * matchNorm A R u v + (1 - lam) * allNorm A R u v := by
        have h1 := mul_nonneg hlam0 hm0
        have h2 := mul_nonneg (by linarith : (0:ℚ) ≤ 1 - lam) ha0
        linarith
      have hmix1 : lam * matchNorm A R u v + (1 - lam) * allNorm A R u v ≤ 1 := by
        have h1 := mul_le_mul_of_nonneg_left hm1 hlam0
        have h2 := mul_le_mul_of_nonneg_left ha1 (by linarith : (0:ℚ) ≤ 1 - lam)
        linarith
      constructor
      · have := mul_nonneg (by linarith : (0:ℚ) ≤ 1 - be) hmix0
        linarith
      · have := mul_le_mul_of_nonneg_left hmix1 (by linarith : (0:ℚ) ≤ 1 - be)
        linarith
  · intro u
    simp [roleSimStarUpdate]

theorem simInv_iterate {nn : ℕ} (f : (Fin nn → Fin nn → ℚ) → Fin nn → Fin nn → ℚ)
    (hf : ∀ R, SimInv R → SimInv (f R)) (R0 : Fin nn → Fin nn → ℚ)
    (h0 : SimInv R0) : ∀ k, SimInv (f^[k] R0) := by
  intro k
  induction k with
  | zero => exact h0
  | succ k ih =>
    rw [Function.iterate_succ_apply']
    exact hf _ ih

end RoleSim

/-- C5: every similarity matrix produced by the RoleSim or RoleSim*
fixed-point iteration, for any graph, any in-domain parameters beta, lambda
and baseline, and any iteration count, is symmetric, has every entry in
[0,1], and has every diagonal entry equal to 1, the maximum attainable
similarity value. -/
theorem C5_rolesim_matrix_invariants {nn : ℕ} (A : Fin nn → Fin nn → Bool)
    (be lam b : ℚ) (k : ℕ) (hbe0 : 0 ≤ be) (hbe1 : be ≤ 1) (hlam0 : 0 ≤ lam)
    (hlam1 : lam ≤ 1) (hb0 : 0 ≤ b) (hb1 : b ≤ 1) :
    (∀ u v, RoleSim.roleSim A be b k u v = RoleSim.roleSim A be b k v u) ∧
    (∀ u v, 0 ≤ RoleSim.roleSim A be b k u v ∧ RoleSim.roleSim A be b k u v ≤ 1) ∧
    (∀ u, RoleSim.roleSim A be b k u u = 1) ∧
    (∀ u v, RoleSim.roleSimStar A be lam b k u v = RoleSim.roleSimStar A be lam b k v u) ∧
    (∀ u v, 0 ≤ RoleSim.roleSimStar A be lam b k u v ∧
      RoleSim.roleSimStar A be lam b k u v ≤ 1) ∧
    (∀ u, RoleSim.roleSimStar A be lam b k u u = 1) := by
  have h1 : RoleSim.SimInv (RoleSim.roleSim A be b k) :=
    RoleSim.simInv_iterate (RoleSim.roleSimUpdate A be)
      (fun R hR => RoleSim.simInv_roleSimUpdate A be hbe0 hbe1 R hR)
      (RoleSim.simInit b) (RoleSim.simInv_simInit b hb0 hb1) k
  have h2 : RoleSim.SimInv (RoleSim.roleSimStar A be lam b k) :=
    RoleSim.simInv_iterate (RoleSim.roleSimStarUpdate A be lam)
      (fun R hR => RoleSim.simInv_roleSimStarUpdate A be lam hbe0 hbe1 hlam0 hlam1 R hR)
      (RoleSim.simInit b) (RoleSim.simInv_simInit b hb0 hb1) k
  exact ⟨h1.1, h1.2.1, h1.2.2, h2.1, h2.2.1, h2.2.2⟩

theorem C5_rolesim_matrix_invariants_witness :
    ((0:ℚ) ≤ 1/2 ∧ (1/2:ℚ) ≤ 1) ∧
    (∀ u, RoleSim.roleSim (fun i j : Fin 2 => decide (i ≠ j)) (1/2) (1/2) 3 u u = 1) ∧
    (∀ u v, RoleSim.roleSimStar (fun i j : Fin 2 => decide (i ≠ j)) (1/2) (1/2) (1/2) 3 u v =
      RoleSim.roleSimStar (fun i j : Fin 2 => decide (i ≠ j)) (1/2) (1/2) (1/2) 3 v u) := by
  have h := C5_rolesim_matrix_invariants (fun i j : Fin 2 => decide (i ≠ j))
    (1/2) (1/2) (1/2) 3 (by norm_num) (by norm_num) (by norm_num) (by norm_num)
    (by norm_num) (by norm_num)
  exact ⟨⟨by norm_num, by norm_num⟩, h.2.2.1, h.2.2.2.1⟩

namespace Kemeny

/-- Modelled from the spec: node degree of the undirected graph, the number
of adjacent nodes (section 4.4; the Kemeny Connectivity Engine is outside
the analysed sources). -/
def degF {nn : ℕ} (A : Fin nn → Fin nn → Bool) (i : Fin nn) : ℕ :=
  (Finset.univ.filter (fun j => A i j = true)).card

/-- Total degree of the graph. -/
def totalDeg {nn : ℕ} (A : Fin nn → Fin nn → Bool) : ℕ :=
  ∑ i, degF A i

/-- Modelled from the spec: the stationary distribution of the simple random
walk, node degree over total degree (section 4.4). -/
def piDist {nn : ℕ} (A : Fin nn → Fin nn → Bool) (i : Fin nn) : ℚ :=
  (degF A i : ℚ) / (totalDeg A : ℚ)

/-- Modelled from the spec: the transition matrix of the simple random walk,
uniform over neighbours. -/
def P {nn : ℕ} (A : Fin nn → Fin nn → Bool) (i k : Fin nn) : ℚ :=
  (if A i k then (1:ℚ) else 0) / (degF A i : ℚ)

/-- Modelled from the spec: the Kemeny constant computed from reference row i
of the mean-first-passage matrix M, K = sum over j of pi(j) * M(i, j)
(section 4.4). -/
def kemenyAt {nn : ℕ} (A : Fin nn → Fin nn → Bool) (M : Fin nn → Fin nn → ℚ)
    (i : Fin nn) : ℚ :=
  ∑ j, piDist A j * M i j

theorem sum_boole_adj {nn : ℕ} (A : Fin nn → Fin nn → Bool) (k : Fin nn) :
    (∑ i, if A i k then (1:ℚ) else 0) = ((Finset.univ.filter (fun i => A i k = true)).card : ℚ) := by
  rw [Finset.sum_boole]

theorem col_card_eq_deg {nn : ℕ} (A : Fin nn → Fin nn → Bool)
    (hsym : ∀ i j, A i j = A j i) (k : Fin nn) :
    (Finset.univ.filter (fun i => A i k = true)).card = degF A k := by
  unfold degF
  congr 1
  apply Finset.filter_congr
  intro i _
  rw [hsym i k]

theorem P_nonneg {nn : ℕ} (A : Fin nn → Fin nn → Bool) (i k : Fin nn) :
    0 ≤ P A i k := by
  unfold P
  apply div_nonneg
  · by_cases h : A i k <;> simp [h]
  · exact Nat.cast_nonneg _

theorem P_pos_of_adj {nn : ℕ} (A : Fin nn → Fin nn → Bool)
    (hdeg : ∀ i, 0 < degF A i) {i k : Fin nn} (h : A i k = true) :
    0 < P A i k := by
  unfold P
  rw [h]
  apply div_pos
  · norm_num
  · exact_mod_cast hdeg i

theorem row_sum_P {nn : ℕ} (A : Fin nn → Fin nn → Bool)
    (hdeg : ∀ i, 0 < degF A i) (i : Fin nn) : ∑ k, P A i k = 1 := by
  unfold P
  rw [← Finset.sum_div]
  rw [Finset.sum_boole]
  have hd : ((degF A i : ℚ)) ≠ 0 := by
    exact_mod_cast (hdeg i).ne.symm
  simp only [degF] at hd ⊢
  rw [div_self]
  simpa using hd

theorem totalDeg_pos {nn : ℕ} (A : Fin nn → Fin nn → Bool)
    (hdeg : ∀ i, 0 < degF A i) (i0 : Fin nn) : 0 < totalDeg A := by
  unfold totalDeg
  have : 0 < degF A i0 := hdeg i0
  calc 0 < degF A i0 := this
  _ ≤ ∑ i, degF A i := Finset.single_le_sum (fun j _ => Nat.zero_le (degF A j)) (Finset.mem_univ i0)

theorem pi_sum_one {nn : ℕ} (A : Fin nn → Fin nn → Bool)
    (hD : 0 < totalDeg A) : ∑ j, piDist A j = 1 := by
  unfold piDist
  rw [← Finset.sum_div]
  have h1 : (∑ j, (degF A j : ℚ)) = (totalDeg A : ℚ) := by
    rw [totalDeg]
    push_cast
    rfl
  rw [h1, div_self]
  exact_mod_cast hD.ne.symm

theorem stationarity {nn : ℕ} (A : Fin nn → Fin nn → Bool)
    (hsym : ∀ i j, A i j = A j i) (hdeg : ∀ i, 0 < degF A i)
    (hD : 0 < totalDeg A) (k : Fin nn) :
    ∑ i, piDist A i * P A i k = piDist A k := by
  have hterm : ∀ i, piDist A i * P A i k = (if A i k then (1:ℚ) else 0) / (totalDeg A : ℚ) := by
    intro i
    unfold piDist P
    have hdi : ((degF A i : ℚ)) ≠ 0 := by exact_mod_cast (hdeg i).ne.symm
    have hDq : ((totalDeg A : ℚ)) ≠ 0 := by exact_mod_cast hD.ne.symm
    field_simp
    by_cases h : A i k = true
    · simp [h, mul_comm]
    · simp [h]
  rw [Finset.sum_congr rfl (fun i _ => hterm i), ← Finset.sum_div, sum_boole_adj,
    col_card_eq_deg A hsym]
  rfl

end Kemeny

namespace Kemeny

/-- One-step expected passage sum: the weighted average over the walk's first
step of the remaining mean first passage time to j. -/
def rowT {nn : ℕ} (A : Fin nn → Fin nn → Bool) (M : Fin nn → Fin nn → ℚ)
    (j i : Fin nn) : ℚ :=
  ∑ k, P A i k * M k j

theorem return_identity {nn : ℕ} (A : Fin nn → Fin nn → Bool)
    (M : Fin nn → Fin nn → ℚ)
    (hsym : ∀ i j, A i j = A j i) (hdeg : ∀ i, 0 < degF A i)
    (hD : 0 < totalDeg A) (hdiag : ∀ j, M j j = 0)
    (hoff : ∀ i j, i ≠ j → M i j = 1 + ∑ k, P A i k * M k j) (j : Fin nn) :
    piDist A j * (1 + rowT A M j j) = 1 := by
  have hS_split := Finset.sum_erase_add Finset.univ
    (fun i => piDist A i * M i j) (Finset.mem_univ j)
  have hdiag0 : piDist A j * M j j = 0 := by rw [hdiag j]; ring
  have hexp : ∀ i ∈ Finset.univ.erase j,
      piDist A i * M i j = piDist A i + piDist A i * rowT A M j i := by
    intro i hi
    rw [hoff i j (Finset.ne_of_mem_erase hi)]
    unfold rowT
    ring
  have h1 : ∑ i ∈ Finset.univ.erase j, piDist A i * M i j
      = (∑ i ∈ Finset.univ.erase j, piDist A i)
        + ∑ i ∈ Finset.univ.erase j, piDist A i * rowT A M j i := by
    rw [Finset.sum_congr rfl hexp, Finset.sum_add_distrib]
  have hpi_erase : ∑ i ∈ Finset.univ.erase j, piDist A i = 1 - piDist A j := by
    have hsplit := Finset.sum_erase_add Finset.univ (piDist A) (Finset.mem_univ j)
    have hall := pi_sum_one A hD
    linarith
  have hT_erase : ∑ i ∈ Finset.univ.erase j, piDist A i * rowT A M j i
      = (∑ i, piDist A i * rowT A M j i) - piDist A j * rowT A M j j := by
    have hsplit := Finset.sum_erase_add Finset.univ
      (fun i => piDist A i * rowT A M j i) (Finset.mem_univ j)
    simp only at hsplit
    linarith
  have hswap : ∑ i, piDist A i * rowT A M j i = ∑ i, piDist A i * M i j := by
    calc ∑ i, piDist A i * rowT A M j i
        = ∑ i, ∑ k, piDist A i * (P A i k * M k j) := by
          apply Finset.sum_congr rfl
          intro i _
          unfold rowT
          exact Finset.mul_sum _ _ _
    _ = ∑ k, ∑ i, piDist A i * (P A i k * M k j) := Finset.sum_comm
    _ = ∑ k, (∑ i, piDist A i * P A i k) * M k j := by
          apply Finset.sum_congr rfl
          intro k _
          rw [Finset.sum_mul]
          apply Finset.sum_congr rfl
          intro i _
          ring
    _ = ∑ k, piDist A k * M k j := by
          apply Finset.sum_congr rfl
          intro k _
          rw [stationarity A hsym hdeg hD k]
  simp only at hS_split
  rw [hdiag0, add_zero] at hS_split
  rw [hswap] at hT_erase
  rw [mul_add, mul_one]
  linarith [hS_split, h1, hpi_erase, hT_erase]

theorem harmonic {nn : ℕ} (A : Fin nn → Fin nn → Bool)
    (M : Fin nn → Fin nn → ℚ)
    (hsym : ∀ i j, A i j = A j i) (hdeg : ∀ i, 0 < degF A i)
    (hD : 0 < totalDeg A) (hdiag : ∀ j, M j j = 0)
    (hoff : ∀ i j, i ≠ j → M i j = 1 + ∑ k, P A i k * M k j) (i : Fin nn) :
    kemenyAt A M i = ∑ k, P A i k * kemenyAt A M k := by
  have hKsplit := Finset.sum_erase_add Finset.univ
    (fun j => piDist A j * M i j) (Finset.mem_univ i)
  have hdiag0 : piDist A i * M i i = 0 := by rw [hdiag i]; ring
  simp only at hKsplit
  rw [hdiag0, add_zero] at hKsplit
  have hexp : ∀ j ∈ Finset.univ.erase i,
      piDist A j * M i j = piDist A j + piDist A j * rowT A M j i := by
    intro j hj
    rw [hoff i j (Ne.symm (Finset.ne_of_mem_erase hj))]
    unfold rowT
    ring
  have h1 : ∑ j ∈ Finset.univ.erase i, piDist A j * M i j
      = (∑ j ∈ Finset.univ.erase i, piDist A j)
        + ∑ j ∈ Finset.univ.erase i, piDist A j * rowT A M j i := by
    rw [Finset.sum_congr rfl hexp, Finset.sum_add_distrib]
  have hpi_erase : ∑ j ∈ Finset.univ.erase i, piDist A j = 1 - piDist A i := by
    have hsplit := Finset.sum_erase_add Finset.univ (piDist A) (Finset.mem_univ i)
    have hall := pi_sum_one A hD
    linarith
  have hinner : ∑ j ∈ Finset.univ.erase i, piDist A j * rowT A M j i
      = ∑ k, P A i k * ((∑ j ∈ Finset.univ.erase i, piDist A j * M k j)) := by
    calc ∑ j ∈ Finset.univ.erase i, piDist A j * rowT A M j i
        = ∑ j ∈ Finset.univ.erase i, ∑ k, P A i k * (piDist A j * M k j) := by
          apply Finset.sum_congr rfl
          intro j _
          unfold rowT
          rw [Finset.mul_sum]
          apply Finset.sum_congr rfl
          intro k _
          ring
    _ = ∑ k, ∑ j ∈ Finset.univ.erase i, P A i k * (piDist A j * M k j) := Finset.sum_comm
    _ = ∑ k, P A i k * ((∑ j ∈ Finset.univ.erase i, piDist A j * M k j)) := by
          apply Finset.sum_congr rfl
          intro k _
          rw [Finset.mul_sum]
  have hj : ∀ k, ∑ j ∈ Finset.univ.erase i, piDist A j * M k j
      = kemenyAt A M k - piDist A i * M k i := by
    intro k
    have hsplit := Finset.sum_erase_add Finset.univ
      (fun j => piDist A j * M k j) (Finset.mem_univ i)
    simp only at hsplit
    unfold kemenyAt
    linarith
  have h2 : ∑ k, P A i k * ((∑ j ∈ Finset.univ.erase i, piDist A j * M k j))
      = (∑ k, P A i k * kemenyAt A M k) - piDist A i * rowT A M i i := by
    calc ∑ k, P A i k * ((∑ j ∈ Finset.univ.erase i, piDist A j * M k j))
        = ∑ k, (P A i k * kemenyAt A M k - piDist A i * (P A i k * M k i)) := by
          apply Finset.sum_congr rfl
          intro k _
          rw [hj k]
          ring
    _ = (∑ k, P A i k * kemenyAt A M k) - ∑ k, piDist A i * (P A i k * M k i) :=
          Finset.sum_sub_distrib
    _ = (∑ k, P A i k * kemenyAt A M k) - piDist A i * rowT A M i i := by
          rw [← Finset.mul_sum]
          rfl
  have hret := return_identity A M hsym hdeg hD hdiag hoff i
  rw [mul_add, mul_one] at hret
  have hK : kemenyAt A M i = ∑ x ∈ Finset.univ.erase i, piDist A x * M i x :=
    hKsplit.symm
  linarith [hK, h1, hpi_erase, hinner, h2, hret]

theorem max_step {nn : ℕ} (A : Fin nn → Fin nn → Bool)
    (M : Fin nn → Fin nn → ℚ)
    (hsym : ∀ i j, A i j = A j i) (hdeg : ∀ i, 0 < degF A i)
    (hD : 0 < totalDeg A) (hdiag : ∀ j, M j j = 0)
    (hoff : ∀ i j, i ≠ j → M i j = 1 + ∑ k, P A i k * M k j)
    (c : ℚ) (hmax : ∀ k, kemenyAt A M k ≤ c) {i j : Fin nn}
    (hKi : kemenyAt A M i = c) (hadj : A i j = true) :
    kemenyAt A M j = c := by
  have hzero : ∑ k, P A i k * (c - kemenyAt A M k) = 0 := by
    have h1 : ∑ k, P A i k * (c - kemenyAt A M k)
        = (∑ k, P A i k * c) - ∑ k, P A i k * kemenyAt A M k := by
      rw [← Finset.sum_sub_distrib]
      apply Finset.sum_congr rfl
      intro k _
      ring
    have h2 : ∑ k, P A i k * c = c := by
      rw [← Finset.sum_mul, row_sum_P A hdeg i, one_mul]
    have h3 := harmonic A M hsym hdeg hD hdiag hoff i
    rw [h1, h2, ← h3, hKi]
    ring
  have hnonneg : ∀ k ∈ Finset.univ, (0:ℚ) ≤ P A i k * (c - kemenyAt A M k) := by
    intro k _
    exact mul_nonneg (P_nonneg A i k) (by linarith [hmax k])
  have hall := (Finset.sum_eq_zero_iff_of_nonneg hnonneg).mp hzero j (Finset.mem_univ j)
  have hPpos := P_pos_of_adj A hdeg hadj
  rcases mul_eq_zero.mp hall with h | h
  · exact absurd h.symm hPpos.ne
  · linarith

theorem max_reach {nn : ℕ} (A : Fin nn → Fin nn → Bool)
    (M : Fin nn → Fin nn → ℚ)
    (hsym : ∀ i j, A i j = A j i) (hdeg : ∀ i, 0 < degF A i)
    (hD : 0 < totalDeg A) (hdiag : ∀ j, M j j = 0)
    (hoff : ∀ i j, i ≠ j → M i j = 1 + ∑ k, P A i k * M k j)
    (c : ℚ) (hmax : ∀ k, kemenyAt A M k ≤ c) (i j : Fin nn)
    (hreach : Relation.ReflTransGen (fun a b => A a b = true) i j) :
    kemenyAt A M i = c → kemenyAt A M j = c := by
  induction hreach with
  | refl => exact id
  | tail hab hbc ih =>
    intro hi
    exact max_step A M hsym hdeg hD hdiag hoff c hmax (ih hi) hbc

end Kemeny

/-- C2: for every connected undirected graph in which every node has a
neighbour, the Kemeny constant computed as K = sum over j of pi(j) * M(i, j)
from the degree stationary distribution pi and any mean-first-passage matrix
M of the simple random walk yields the same value for every choice of
reference row i. -/
theorem C2_kemeny_reference_row_invariant {nn : ℕ} (A : Fin nn → Fin nn → Bool)
    (M : Fin nn → Fin nn → ℚ)
    (hsym : ∀ i j, A i j = A j i)
    (hdeg : ∀ i, 0 < Kemeny.degF A i)
    (hconn : ∀ i j, Relation.ReflTransGen (fun a b => A a b = true) i j)
    (hdiag : ∀ j, M j j = 0)
    (hoff : ∀ i j, i ≠ j → M i j = 1 + ∑ k, Kemeny.P A i k * M k j)
    (i i2 : Fin nn) :
    Kemeny.kemenyAt A M i = Kemeny.kemenyAt A M i2 := by
  have hD := Kemeny.totalDeg_pos A hdeg i
  obtain ⟨i0, _, hmax0⟩ := Finset.exists_max_image Finset.univ
    (Kemeny.kemenyAt A M) ⟨i, Finset.mem_univ i⟩
  have hmax : ∀ k, Kemeny.kemenyAt A M k ≤ Kemeny.kemenyAt A M i0 :=
    fun k => hmax0 k (Finset.mem_univ k)
  have h1 := Kemeny.max_reach A M hsym hdeg hD hdiag hoff
    (Kemeny.kemenyAt A M i0) hmax i0 i (hconn i0 i) rfl
  have h2 := Kemeny.max_reach A M hsym hdeg hD hdiag hoff
    (Kemeny.kemenyAt A M i0) hmax i0 i2 (hconn i0 i2) rfl
  rw [h1, h2]

theorem C2_kemeny_reference_row_invariant_witness :
    (∀ i j : Fin 2, (fun i j : Fin 2 => decide (i ≠ j)) i j = (fun i j : Fin 2 => decide (i ≠ j)) j i) ∧
    (∀ i : Fin 2, 0 < Kemeny.degF (fun i j : Fin 2 => decide (i ≠ j)) i) ∧
    (∀ j : Fin 2, (fun i j : Fin 2 => if i = j then (0:ℚ) else 1) j j = 0) ∧
    Kemeny.kemenyAt (fun i j : Fin 2 => decide (i ≠ j))
        (fun i j : Fin 2 => if i = j then (0:ℚ) else 1) 0 =
      Kemeny.kemenyAt (fun i j : Fin 2 => decide (i ≠ j))
        (fun i j : Fin 2 => if i = j then (0:ℚ) else 1) 1 := by
  have hsym : ∀ i j : Fin 2, (fun i j : Fin 2 => decide (i ≠ j)) i j =
      (fun i j : Fin 2 => decide (i ≠ j)) j i := by decide
  have hdeg : ∀ i : Fin 2, 0 < Kemeny.degF (fun i j : Fin 2 => decide (i ≠ j)) i := by decide
  have hconn : ∀ i j : Fin 2,
      Relation.ReflTransGen (fun a b : Fin 2 => (fun i j : Fin 2 => decide (i ≠ j)) a b = true) i j := by
    intro i j
    by_cases h : i = j
    · subst h
      exact Relation.ReflTransGen.refl
    · exact Relation.ReflTransGen.single (by simpa using h)
  have hdiag : ∀ j : Fin 2, (fun i j : Fin 2 => if i = j then (0:ℚ) else 1) j j = 0 := by
    intro j
    simp
  have hdcast : ∀ i : Fin 2, ((Kemeny.degF (fun i j : Fin 2 => decide (i ≠ j)) i : ℕ) : ℚ) = 1 := by
    have h1 : ∀ i : Fin 2, Kemeny.degF (fun i j : Fin 2 => decide (i ≠ j)) i = 1 := by decide
    intro i
    rw [h1 i]
    norm_num
  have hoff : ∀ i j : Fin 2, i ≠ j →
      (fun i j : Fin 2 => if i = j then (0:ℚ) else 1) i j =
        1 + ∑ k, Kemeny.P (fun i j : Fin 2 => decide (i ≠ j)) i k *
          (fun i j : Fin 2 => if i = j then (0:ℚ) else 1) k j := by
    intro i j hij
    fin_cases i <;> fin_cases j <;>
      simp_all [Kemeny.P, Fin.sum_univ_two, hdcast]
  exact ⟨hsym, hdeg, hdiag,
    C2_kemeny_reference_row_invariant (fun i j : Fin 2 => decide (i ≠ j))
      (fun i j : Fin 2 => if i = j then (0:ℚ) else 1)
      hsym hdeg hconn hdiag hoff 0 1⟩
